import Mathlib

/-!
# Watcher.cc: shared watcher registry and callback dispatch

A shallow embedding of `src/Watcher.cc`.  One `Watcher` object (`this`) is
followed through its member functions; the process-wide registry
`sharedWatchers` is a list of shared pointers.  `Watcher.hh`, `Signal.hh`,
`Event.hh` and `Debounce.hh` are not part of the sources, so the container
types they declare are modelled from the specification and marked as such.
-/

namespace WatcherModel

/-- The JavaScript function a `FunctionReference` refers to. -/
abbrev Callback := Nat

/-- One change record of an `EventList`. -/
abbrev Event := Nat

/-- A `std::shared_ptr<Watcher>`: the address of the object together with the
two identity fields `mDir` and `mIgnore` read through it by `WatcherHash` and
`WatcherCompare`. -/
structure WatcherRef where
  addr : Nat
  mDir : String
  mIgnore : List String
  deriving DecidableEq, Repr

/-- The data members of `struct Watcher` that `Watcher.cc` reads or writes.
`mCallbacksIterator` is `none` for `end()` and `some cb` for the iterator at
the element `cb`; `mCallbackSignal` is the flag of the `Signal`; `mAsync` is
`none` for `NULL`. -/
structure Watcher where
  mDir : String
  mIgnore : List String
  mWatched : Bool
  mAsync : Option Nat
  mCallingCallbacks : Bool
  mCallbacks : List Callback
  mCallbacksIterator : Option Callback
  mEvents : List Event
  mCallbackEvents : List Event
  mCallbackSignal : Bool
  deriving DecidableEq, Repr

/-- The statements of `Watcher.cc` that act outside the callback container. -/
inductive Stmt where
  | asyncInit (h : Nat)
  | setWatched (b : Bool)
  | uvClose (h : Option Nat)
  | removeShared
  | asyncSend (h : Option Nat)
  | call (cb : Callback) (batch : List Event)
  | condNotifyAll
  | debounceTrigger
  | signalNotify
  deriving DecidableEq, Repr

/-- Program state: the object `this` at address `self`, the global
`sharedWatchers`, the number of `uv_async_t` allocated so far, and the trace
of executed statements, each with the members of `this` when it ran. -/
structure State where
  self : Nat
  w : Watcher
  sharedWatchers : List WatcherRef
  asyncAllocs : Nat
  trace : List (Stmt × Watcher)
  deriving DecidableEq, Repr

/-- Append a statement to the trace together with the current members. -/
def emit (st : Stmt) (s : State) : State :=
  { s with trace := s.trace ++ [(st, s.w)] }

/-- How a call ends: `done s` when it returns in state `s`; `stuck s` when it
does not return, being blocked in `mCallbackSignal.wait()` or still inside
the dispatch loop when the fuel ran out, with `s` the state reached. -/
inductive Outcome where
  | done (s : State)
  | stuck (s : State)
  deriving DecidableEq, Repr

/-- The state an outcome carries. -/
def Outcome.state : Outcome → State
  | Outcome.done s => s
  | Outcome.stuck s => s

/-- Continue with `f` after a call that returned. -/
def Outcome.andThen (o : Outcome) (f : State → Outcome) : Outcome :=
  match o with
  | Outcome.done s => f s
  | Outcome.stuck s => Outcome.stuck s

/-- Modelled from the spec: `Watcher::operator==` is declared in `Watcher.hh`;
the ignore sets are `std::unordered_set<std::string>`, equal when they hold
the same strings. -/
def sameSet (a b : List String) : Bool :=
  a.all (fun x => decide (x ∈ b)) && b.all (fun x => decide (x ∈ a))

/-- Modelled from the spec: `Watcher::operator==` from `Watcher.hh`,
"equality defined over both fields". -/
def watcherEq (a b : WatcherRef) : Bool :=
  decide (a.mDir = b.mDir) && sameSet a.mIgnore b.mIgnore

/-- The functor `WatcherHash::operator()`: `std::hash<std::string>()(k->mDir)`, with the
library string hash as a parameter. -/
def WatcherHash (strHash : String → Nat) (k : WatcherRef) : Nat :=
  strHash k.mDir

/-- The functor `WatcherCompare::operator()`: `*a == *b`. -/
def WatcherCompare (a b : WatcherRef) : Bool :=
  watcherEq a b

/-- The lookup `sharedWatchers.find(k)`: an element with the hash of `k` that compares
equal to `k`, or `end()`. -/
def findShared (strHash : String → Nat) (k : WatcherRef) (reg : List WatcherRef) :
    Option WatcherRef :=
  reg.find? (fun r => decide (WatcherHash strHash r = WatcherHash strHash k) && WatcherCompare r k)

/-- The function `Watcher::getShared(dir, ignore)`; `addr` is the address `make_shared`
returns for the probe object.  Result: the returned pointer and the registry. -/
def getShared (strHash : String → Nat) (addr : Nat) (dir : String) (ignore : List String)
    (reg : List WatcherRef) : WatcherRef × List WatcherRef :=
  let watcher : WatcherRef := { addr := addr, mDir := dir, mIgnore := ignore }
  match findShared strHash watcher reg with
  | some found => (found, reg)
  | none => (watcher, watcher :: reg)

/-- The function `removeShared(watcher)`: erase the first entry whose pointer is
`watcher`. -/
def removeShared (watcher : Nat) : List WatcherRef → List WatcherRef
  | [] => []
  | it :: rest => if it.addr = watcher then rest else it :: removeShared watcher rest

/-- The function `Watcher::unref()`. -/
def unref (s : State) : State :=
  if s.w.mCallbacks.length = 0 ∧ s.w.mCallingCallbacks = false then
    let s1 :=
      if s.w.mWatched = true then
        let a := emit (Stmt.setWatched false) s
        let b := { a with w := { a.w with mWatched := false } }
        emit (Stmt.uvClose b.w.mAsync) b
      else s
    let s2 := emit Stmt.removeShared s1
    { s2 with sharedWatchers := removeShared s2.self s2.sharedWatchers }
  else s

/-- Modelled from the spec: `mCallbacks.insert(x)` for the callback container
declared in `Watcher.hh`.  A handle already present is not inserted again; a
new one lands at the index `place x l` of the iteration order. -/
def insertCallback (place : Callback → List Callback → Nat) (x : Callback)
    (l : List Callback) : List Callback × Bool :=
  if x ∈ l then (l, false) else (l.take (place x l) ++ x :: l.drop (place x l), true)

/-- The function `Watcher::watch(callback)`. -/
def watch (place : Callback → List Callback → Nat) (callback : Callback) (s : State) :
    Bool × State :=
  let res := insertCallback place callback s.w.mCallbacks
  let s0 := { s with w := { s.w with mCallbacks := res.1 } }
  if res.2 = true ∧ s0.w.mWatched = false then
    let h := s0.asyncAllocs
    let a := { s0 with asyncAllocs := h + 1, w := { s0.w with mAsync := some h } }
    let b := emit (Stmt.asyncInit h) a
    let c := emit (Stmt.setWatched true) b
    (true, { c with w := { c.w with mWatched := true } })
  else (false, s0)

/-- The loop of `Watcher::unwatch`: find `callback`, erase it, and give back
the container and the iterator `erase` returns (the element after it, or
`end()`); `none` when the loop ends without a match. -/
def eraseCallback (callback : Callback) : List Callback → Option (List Callback × Option Callback)
  | [] => none
  | it :: rest =>
    if it = callback then some (rest, rest.head?)
    else (eraseCallback callback rest).map (fun r => (it :: r.1, r.2))

/-- The function `Watcher::unwatch(callback)`. -/
def unwatch (callback : Callback) (s : State) : Bool × State :=
  match eraseCallback callback s.w.mCallbacks with
  | some (cbs, nxt) =>
    let s1 := { s with w := { s.w with mCallbacks := cbs, mCallbacksIterator := nxt } }
    if s1.w.mCallbacks.length = 0 then (true, unref s1) else (false, s1)
  | none => (false, s)

/-- The function `Watcher::notify()`. -/
def notify (s : State) : State :=
  let s1 := emit Stmt.condNotifyAll s
  if s1.w.mCallbacks.length > 0 ∧ s1.w.mEvents.length > 0 then emit Stmt.debounceTrigger s1
  else s1

/-- Modelled from the spec: `Signal::wait()` of `Signal.hh`, a flag with a
condition: it returns once the flag is set; with the flag unset and no other
thread running it does not return. -/
def signalWait (s : State) : Outcome :=
  if s.w.mCallbackSignal = true then Outcome.done s else Outcome.stuck s

/-- Modelled from the spec: `Signal::reset()` of `Signal.hh` clears the flag. -/
def signalReset (s : State) : State :=
  { s with w := { s.w with mCallbackSignal := false } }

/-- Modelled from the spec: `Signal::notify()` of `Signal.hh` sets the flag and
wakes the waiters. -/
def signalNotify (s : State) : State :=
  let s1 := emit Stmt.signalNotify s
  { s1 with w := { s1.w with mCallbackSignal := true } }

/-- The function `Watcher::triggerCallbacks()`. -/
def triggerCallbacks (s : State) : Outcome :=
  if s.w.mCallbacks.length > 0 ∧ s.w.mEvents.length > 0 then
    let waited : Outcome :=
      if s.w.mCallingCallbacks = true then
        (signalWait s).andThen (fun s0 => Outcome.done (signalReset s0))
      else Outcome.done s
    waited.andThen (fun s1 =>
      let s2 := { s1 with w := { s1.w with mCallbackEvents := s1.w.mEvents, mEvents := [] } }
      Outcome.done (emit (Stmt.asyncSend s2.w.mAsync) s2))
  else Outcome.done s

/-- A reentrant call a callback makes on the watcher while it is invoked. -/
inductive Op where
  | watch (cb : Callback)
  | unwatch (cb : Callback)
  | unref
  deriving DecidableEq, Repr

/-- One reentrant call. -/
def runOp (place : Callback → List Callback → Nat) (o : Op) (s : State) : State :=
  match o with
  | Op.watch cb => (watch place cb s).2
  | Op.unwatch cb => (unwatch cb s).2
  | Op.unref => unref s

/-- The body of a callback: its reentrant calls, in order. -/
def runOps (place : Callback → List Callback → Nat) : List Op → State → State
  | [], s => s
  | o :: os, s => runOps place os (runOp place o s)

/-- The increment `++` of the iterator at `it`: the element that follows `it`, or
`end()`. -/
def nextCallback (it : Callback) : List Callback → Option Callback
  | [] => none
  | x :: rest => if x = it then rest.head? else nextCallback it rest

/-- The `while` loop of `Watcher::fireCallbacks` (lines 87-98).  `beh k cb` is
what the callback `cb` does when it is the `k`-th invocation of the pass;
`stuck` when `fuel` iterations did not reach `end()`. -/
def fireLoop (place : Callback → List Callback → Nat) (beh : Nat → Callback → List Op) :
    Nat → Nat → State → Outcome
  | 0, _, s => Outcome.stuck s
  | fuel + 1, k, s =>
    match s.w.mCallbacksIterator with
    | none => Outcome.done s
    | some it =>
      let s1 := emit (Stmt.call it s.w.mCallbackEvents) s
      let s2 := runOps place (beh k it) s1
      let s3 :=
        if s2.w.mCallbacksIterator = some it then
          { s2 with w := { s2.w with mCallbacksIterator := nextCallback it s2.w.mCallbacks } }
        else s2
      fireLoop place beh fuel (k + 1) s3

/-- Lines 100-105 of `Watcher::fireCallbacks`, after the loop. -/
def fireFinish (s : State) : State :=
  let s1 := { s with w := { s.w with mCallingCallbacks := false } }
  let s2 := if s1.w.mCallbacks.length = 0 then unref s1 else s1
  signalNotify s2

/-- The function `Watcher::fireCallbacks(handle)` with `handle->data == this`. -/
def fireCallbacks (place : Callback → List Callback → Nat) (beh : Nat → Callback → List Op)
    (fuel : Nat) (s : State) : Outcome :=
  let s1 := { s with w := { s.w with mCallingCallbacks := true } }
  let s2 := { s1 with w := { s1.w with mCallbacksIterator := s1.w.mCallbacks.head? } }
  (fireLoop place beh fuel 0 s2).andThen (fun s3 => Outcome.done (fireFinish s3))

/-- Modelled from the spec: `recordEvents`; the platform backends that fill
`mEvents` are not part of the sources, a record is added at the end. -/
def recordEvent (e : Event) (s : State) : State :=
  { s with w := { s.w with mEvents := s.w.mEvents ++ [e] } }

/-- A call made on the watcher from outside a callback. -/
inductive Step where
  | watch (cb : Callback)
  | unwatch (cb : Callback)
  | unref
  | notify
  | record (e : Event)
  | triggerCallbacks
  | fireCallbacks (beh : Nat → Callback → List Op) (fuel : Nat)

/-- Run one call. -/
def step (place : Callback → List Callback → Nat) (st : Step) (s : State) : Outcome :=
  match st with
  | Step.watch cb => Outcome.done (watch place cb s).2
  | Step.unwatch cb => Outcome.done (unwatch cb s).2
  | Step.unref => Outcome.done (unref s)
  | Step.notify => Outcome.done (notify s)
  | Step.record e => Outcome.done (recordEvent e s)
  | Step.triggerCallbacks => triggerCallbacks s
  | Step.fireCallbacks beh fuel => fireCallbacks place beh fuel s

/-- Run a sequence of calls, stopping at the first that does not return. -/
def run (place : Callback → List Callback → Nat) : List Step → State → Outcome
  | [], s => Outcome.done s
  | st :: rest, s => (step place st s).andThen (run place rest)

/-- The batches handed to callbacks so far, in order, read off the trace. -/
def batches : List (Stmt × Watcher) → List (List Event)
  | [] => []
  | (Stmt.call _ b, _) :: rest => b :: batches rest
  | _ :: rest => batches rest

/-- The callbacks invoked so far, in order, read off the trace. -/
def calls : List (Stmt × Watcher) → List Callback
  | [] => []
  | (Stmt.call cb _, _) :: rest => cb :: calls rest
  | _ :: rest => calls rest

/-- The constructor `Watcher::Watcher(dir, ignore)`: the members after
construction (lines 40-46); the containers start empty and the signal flag
unset.  The listener it adds to the shared `Debounce` is outside the model. -/
def newWatcher (dir : String) (ignore : List String) : Watcher :=
  { mDir := dir
    mIgnore := ignore
    mWatched := false
    mAsync := none
    mCallingCallbacks := false
    mCallbacks := []
    mCallbacksIterator := none
    mEvents := []
    mCallbackEvents := []
    mCallbackSignal := false }

/-- The state right after `getShared(dir, ignore)` created the watcher at
address `self` in an empty registry. -/
def newState (self : Nat) (dir : String) (ignore : List String) : State :=
  { self := self
    w := newWatcher dir ignore
    sharedWatchers := [{ addr := self, mDir := dir, mIgnore := ignore }]
    asyncAllocs := 0
    trace := [] }

/-- A container that appends new handles at the end of the iteration order. -/
def placeLast : Callback → List Callback → Nat :=
  fun _ l => l.length

/-- A container that puts new handles at the front of the iteration order. -/
def placeFirst : Callback → List Callback → Nat :=
  fun _ _ => 0

/-- The callback behaviour of the reentrancy scenario: `a` unregisters itself,
unregisters `b` and registers `d`; every other callback does nothing. -/
def scenarioBeh (a b d : Callback) : Nat → Callback → List Op :=
  fun _ cb => if cb = a then [Op.unwatch a, Op.unwatch b, Op.watch d] else []

/-- A watched watcher at address 1 with callbacks `[1, 2, 3]`, registered in
`sharedWatchers`, with the in-flight batch `[7]`. -/
def scenarioState : State :=
  { self := 1
    w := { newWatcher "/a" [] with
            mWatched := true, mAsync := some 0, mCallbacks := [1, 2, 3], mCallbackEvents := [7] }
    sharedWatchers := [{ addr := 1, mDir := "/a", mIgnore := [] }]
    asyncAllocs := 1
    trace := [] }

/-- The watcher of `scenarioState` with callbacks `[1, 2, 3, 4]`. -/
def fourState : State :=
  { scenarioState with w := { scenarioState.w with mCallbacks := [1, 2, 3, 4] } }

/-- Callback 1 unregisters callback 3, which the pass has not reached yet. -/
def aheadBeh : Nat → Callback → List Op :=
  fun _ cb => if cb = 1 then [Op.unwatch 3] else []

/-- Callback 3 unregisters callback 1, which the pass has visited already. -/
def behindBeh : Nat → Callback → List Op :=
  fun _ cb => if cb = 3 then [Op.unwatch 1] else []

/-- Callbacks that make no reentrant call. -/
def quietBeh : Nat → Callback → List Op :=
  fun _ _ => []

/-- A new watcher on which callback 5 has been registered. -/
def oneCallbackState : State :=
  (watch placeLast 5 (newState 1 "/a" [])).2

/-- The statements of a teardown: clearing `mWatched`, closing the wake handle
and the call of `removeShared`. -/
def isTeardown : Stmt → Bool
  | Stmt.setWatched false => true
  | Stmt.uvClose _ => true
  | Stmt.removeShared => true
  | _ => false

/-- The statements that concern neither the wake handle, `mWatched` nor the
registry. -/
def isQuiet : Stmt → Bool
  | Stmt.asyncSend _ => true
  | Stmt.call _ _ => true
  | Stmt.condNotifyAll => true
  | Stmt.debounceTrigger => true
  | Stmt.signalNotify => true
  | _ => false

/-- A property of states that every primitive change made by `Watcher.cc`
keeps: the three member functions callbacks may reenter, tracing a quiet
statement, and writing the members used only by the dispatch machinery. -/
structure Stable (place : Callback → List Callback → Nat) (P : State → Prop) : Prop where
  watch : ∀ cb s, P s → P (watch place cb s).2
  unwatch : ∀ cb s, P s → P (unwatch cb s).2
  unref : ∀ s, P s → P (unref s)
  emit : ∀ st s, isQuiet st = true → P s → P (emit st s)
  frame : ∀ s cc it ev cev sg, P s →
    P { s with w := { s.w with mCallingCallbacks := cc, mCallbacksIterator := it,
                                mEvents := ev, mCallbackEvents := cev, mCallbackSignal := sg } }

/-- What happened between the states `s0` and `s`: the trace grew by `t`;
every teardown statement in `t` ran with an empty callback set and with
`mCallingCallbacks` false; and `t` shows every change of `mWatched` from
true to false and every change of the registry. -/
def GuardedSince (s0 s : State) : Prop :=
  ∃ t, s.trace = s0.trace ++ t ∧
    (∀ e ∈ t, isTeardown e.1 = true → e.2.mCallbacks = [] ∧ e.2.mCallingCallbacks = false) ∧
    (s0.w.mWatched = true → s.w.mWatched = false → Stmt.setWatched false ∈ t.map Prod.fst) ∧
    (s.sharedWatchers ≠ s0.sharedWatchers → Stmt.removeShared ∈ t.map Prod.fst)

/-- What holds inside a dispatch pass that started in `s0` on a watched
watcher: `mCallingCallbacks` and `mWatched` are true, the wake handle, the
registry and the address are those of `s0`, and no teardown statement ran. -/
def DuringPass (s0 s : State) : Prop :=
  s.w.mCallingCallbacks = true ∧ s.w.mWatched = true ∧ s.w.mAsync = s0.w.mAsync ∧
  s.sharedWatchers = s0.sharedWatchers ∧ s.self = s0.self ∧
  ∃ t, s.trace = s0.trace ++ t ∧ ∀ e ∈ t, isTeardown e.1 = false

/-- Every callback unregisters itself when it is invoked. -/
def selfRemoveBeh : Nat → Callback → List Op :=
  fun _ cb => [Op.unwatch cb]

/-- The statements that create or close a wake handle or write `mWatched`. -/
def isLifecycle : Stmt → Bool
  | Stmt.asyncInit _ => true
  | Stmt.setWatched _ => true
  | Stmt.uvClose _ => true
  | _ => false

/-- The wake-handle history of a trace: its lifecycle statements in order. -/
def lifecycle (tr : List (Stmt × Watcher)) : List Stmt :=
  (tr.map Prod.fst).filter isLifecycle

/-- One complete activation with wake handle `i`: created, `mWatched` set,
`mWatched` cleared, closed. -/
def cycle (i : Nat) : List Stmt :=
  [Stmt.asyncInit i, Stmt.setWatched true, Stmt.setWatched false, Stmt.uvClose (some i)]

/-- The complete activations with the handles `0, ..., n - 1`, in this order. -/
def cycles : Nat → List Stmt
  | 0 => []
  | n + 1 => cycles n ++ cycle n

/-- The wake-handle history matches the members: an unwatched watcher has
completed one activation per handle allocated; a watched one has in addition
started the activation with the newest handle, which is `mAsync`. -/
def Lifecycle (s : State) : Prop :=
  (s.w.mWatched = false → lifecycle s.trace = cycles s.asyncAllocs) ∧
  (s.w.mWatched = true → ∃ n, s.asyncAllocs = n + 1 ∧ s.w.mAsync = some n ∧
    lifecycle s.trace = cycles n ++ [Stmt.asyncInit n, Stmt.setWatched true])

/-- The member `mAsync` follows the allocations: `NULL` before the first
`new uv_async_t`, the newest handle ever after; a watched watcher has had an
allocation. -/
def HandleKept (s : State) : Prop :=
  s.w.mAsync = (if s.asyncAllocs = 0 then none else some (s.asyncAllocs - 1)) ∧
  (s.w.mWatched = true → 0 < s.asyncAllocs)

/-- A registry with two watchers on different directories. -/
def twoEntries : List WatcherRef :=
  [{ addr := 3, mDir := "/a", mIgnore := ["x"] }, { addr := 4, mDir := "/b", mIgnore := [] }]

/-- A call on the registry: `Watcher::getShared(dir, ignore)`, with the
address `make_shared` gives the probe, or `removeShared(watcher)`. -/
inductive RegCall where
  | getShared (addr : Nat) (dir : String) (ignore : List String)
  | removeShared (watcher : Nat)
  deriving DecidableEq, Repr

/-- The registry after a sequence of calls. -/
def runRegistry (strHash : String → Nat) : List RegCall → List WatcherRef → List WatcherRef
  | [], reg => reg
  | RegCall.getShared a d ig :: rest, reg =>
    runRegistry strHash rest (getShared strHash a d ig reg).2
  | RegCall.removeShared w :: rest, reg => runRegistry strHash rest (removeShared w reg)

/-- No two entries of the registry compare equal. -/
def UniqueTargets (reg : List WatcherRef) : Prop :=
  reg.Pairwise (fun a b => WatcherCompare a b = false)

/-- The bookkeeping of a scan over the executed statements: the handles
created so far, the handle created and not yet closed, and whether every
creation so far made a new handle and every close so far closed the live
handle. -/
structure HandleScan where
  created : List Nat
  live : Option Nat
  ok : Bool
  deriving DecidableEq, Repr

/-- Scan one statement: `uv_async_init` makes its handle the live one and is
in order when the handle is new; `uv_close` is in order when its argument is
the live handle, and leaves no live handle. -/
def scanStmt (a : HandleScan) : Stmt → HandleScan
  | Stmt.asyncInit h =>
    { created := h :: a.created, live := some h, ok := a.ok && decide (h ∉ a.created) }
  | Stmt.uvClose x =>
    { created := a.created, live := none, ok := a.ok && decide (x ≠ none ∧ x = a.live) }
  | _ => a

/-- Scan the statements of a trace from the start. -/
def scanTrace (tr : List Stmt) : HandleScan :=
  tr.foldl scanStmt { created := [], live := none, ok := true }

/-- The state inside a pass that started from `s`: callback set `cbs`, cursor
`it` and the trace grown by `t`; everything else as in `s`. -/
def passState (s : State) (cbs : List Callback) (it : Option Callback)
    (t : List (Stmt × Watcher)) : State :=
  { s with w := { s.w with mCallbacks := cbs, mCallbacksIterator := it },
           trace := s.trace ++ t }

/-- The callbacks of `l` that stay registered when they are invoked in order
as the invocations `k`, `k + 1`, ... and each one with a non-empty behaviour
unregisters itself. -/
def survivors (beh : Nat → Callback → List Op) : Nat → List Callback → List Callback
  | _, [] => []
  | k, cb :: rest =>
    if (beh k cb).isEmpty = true then cb :: survivors beh (k + 1) rest
    else survivors beh (k + 1) rest

/-- Callback 2 unregisters itself when invoked, the others do nothing. -/
def secondLeavesBeh : Nat → Callback → List Op :=
  fun _ cb => if cb = 2 then [Op.unwatch 2] else []

/-- One iteration of the loop of `fireCallbacks` with the cursor at `it`, as
the `k`-th invocation: lines 88-97. -/
def fireBody (place : Callback → List Callback → Nat) (beh : Nat → Callback → List Op)
    (k : Nat) (it : Callback) (s : State) : State :=
  let s1 := emit (Stmt.call it s.w.mCallbackEvents) s
  let s2 := runOps place (beh k it) s1
  if s2.w.mCallbacksIterator = some it then
    { s2 with w := { s2.w with mCallbacksIterator := nextCallback it s2.w.mCallbacks } }
  else s2

/-- The number of callbacks from the cursor to the end of the container. -/
def remaining (it : Option Callback) (l : List Callback) : Nat :=
  match it with
  | none => 0
  | some c => (l.dropWhile (fun x => !decide (x = c))).length

/-- A bound on the iterations the loop of `fireCallbacks` still makes when
callbacks only unregister: it drops when the cursor advances and when the
container shrinks, wherever the cursor then points. -/
def passMeasure (s : State) : Nat :=
  (s.w.mCallbacks.length + 1) * (s.w.mCallbacks.length + 1)
    + remaining s.w.mCallbacksIterator s.w.mCallbacks

/-- What holds at the head of the loop: a pass is running, the container holds
no handle twice, and the cursor is `end()` or at an element. -/
def PassInv (s : State) : Prop :=
  s.w.mCallingCallbacks = true ∧ s.w.mCallbacks.Nodup ∧
  ∀ c, s.w.mCallbacksIterator = some c → c ∈ s.w.mCallbacks


/-! ## The registry -/

theorem sameSet_iff (a b : List String) : sameSet a b = true ↔ ∀ x, x ∈ a ↔ x ∈ b := by
  simp only [sameSet, Bool.and_eq_true, List.all_eq_true, decide_eq_true_eq]
  constructor
  · rintro ⟨h1, h2⟩ x
    exact ⟨h1 x, h2 x⟩
  · intro h
    exact ⟨fun x hx => (h x).1 hx, fun x hx => (h x).2 hx⟩

theorem WatcherCompare_iff (a b : WatcherRef) :
    WatcherCompare a b = true ↔ a.mDir = b.mDir ∧ ∀ x, x ∈ a.mIgnore ↔ x ∈ b.mIgnore := by
  simp [WatcherCompare, watcherEq, sameSet_iff]

theorem WatcherCompare_refl (a : WatcherRef) : WatcherCompare a a = true := by
  simp [WatcherCompare_iff]

theorem WatcherCompare_symm {a b : WatcherRef} (h : WatcherCompare a b = true) :
    WatcherCompare b a = true := by
  rw [WatcherCompare_iff] at h ⊢
  exact ⟨h.1.symm, fun x => (h.2 x).symm⟩

theorem WatcherCompare_trans {a b c : WatcherRef} (h : WatcherCompare a b = true)
    (h2 : WatcherCompare b c = true) : WatcherCompare a c = true := by
  rw [WatcherCompare_iff] at h h2 ⊢
  exact ⟨h.1.trans h2.1, fun x => (h.2 x).trans (h2.2 x)⟩

theorem WatcherHash_of_compare (strHash : String → Nat) {a b : WatcherRef}
    (h : WatcherCompare a b = true) : WatcherHash strHash a = WatcherHash strHash b := by
  rw [WatcherCompare_iff] at h
  simp [WatcherHash, h.1]

/-- The predicate `find` tests is `WatcherCompare` alone: equal watchers hash alike. -/
theorem findShared_eq (strHash : String → Nat) (k : WatcherRef) (reg : List WatcherRef) :
    findShared strHash k reg = reg.find? (fun r => WatcherCompare r k) := by
  unfold findShared
  congr 1
  funext r
  cases h : WatcherCompare r k
  · simp
  · simp [WatcherHash_of_compare strHash h]

theorem find?_congr_pred {α : Type} (p q : α → Bool) (l : List α) (h : ∀ x ∈ l, p x = q x) :
    l.find? p = l.find? q := by
  induction l with
  | nil => rfl
  | cons a t ih =>
    have ha := h a (List.mem_cons_self a t)
    have ht := ih (fun x hx => h x (List.mem_cons_of_mem a hx))
    simp [List.find?, ha, ht]

/-- The lookup depends on the probe only through its directory and ignore set. -/
theorem findShared_probe (strHash : String → Nat) (k k2 : WatcherRef) (reg : List WatcherRef)
    (h : WatcherCompare k k2 = true) : findShared strHash k reg = findShared strHash k2 reg := by
  rw [findShared_eq, findShared_eq]
  apply find?_congr_pred
  intro r _
  cases h1 : WatcherCompare r k
  · cases h2 : WatcherCompare r k2
    · rfl
    · have := WatcherCompare_trans h2 (WatcherCompare_symm h)
      rw [h1] at this
      exact absurd this (by simp)
  · exact (WatcherCompare_trans h1 h).symm

theorem getShared_of_some (strHash : String → Nat) (addr : Nat) (d : String) (ig : List String)
    (reg : List WatcherRef) (found : WatcherRef)
    (h : findShared strHash ⟨addr, d, ig⟩ reg = some found) :
    getShared strHash addr d ig reg = (found, reg) := by
  simp [getShared, h]

theorem getShared_of_none (strHash : String → Nat) (addr : Nat) (d : String) (ig : List String)
    (reg : List WatcherRef) (h : findShared strHash ⟨addr, d, ig⟩ reg = none) :
    getShared strHash addr d ig reg = (⟨addr, d, ig⟩, ⟨addr, d, ig⟩ :: reg) := by
  simp [getShared, h]

theorem findShared_some (strHash : String → Nat) (k found : WatcherRef) (reg : List WatcherRef)
    (h : findShared strHash k reg = some found) :
    found ∈ reg ∧ WatcherCompare found k = true := by
  rw [findShared_eq] at h
  exact ⟨List.mem_of_find?_eq_some h, by simpa using List.find?_some h⟩

theorem findShared_none (strHash : String → Nat) (k : WatcherRef) (reg : List WatcherRef)
    (h : findShared strHash k reg = none) : ∀ e ∈ reg, WatcherCompare e k = false := by
  rw [findShared_eq] at h
  intro e he
  simpa using List.find?_eq_none.1 h e he

/-- C1: `getShared(d, s)` returns an entry already in the registry whose
(directory, ignore set) equals `(d, s)` when there is one, leaving the
registry unchanged (and that entry is the only such one when the registry
holds no two equal watchers); otherwise it inserts the new watcher and
returns it.  A second `getShared(d, s)` returns the same instance. -/
theorem getShared_shares (strHash : String → Nat) (addr addr2 : Nat) (d : String)
    (ig : List String) (reg : List WatcherRef) :
    ((∃ e ∈ reg, WatcherCompare e ⟨addr, d, ig⟩ = true) →
      (getShared strHash addr d ig reg).1 ∈ reg ∧
      WatcherCompare (getShared strHash addr d ig reg).1 ⟨addr, d, ig⟩ = true ∧
      (getShared strHash addr d ig reg).2 = reg ∧
      (reg.Pairwise (fun a b => WatcherCompare a b = false) →
        ∀ e ∈ reg, WatcherCompare e ⟨addr, d, ig⟩ = true →
          e = (getShared strHash addr d ig reg).1)) ∧
    ((∀ e ∈ reg, WatcherCompare e ⟨addr, d, ig⟩ = false) →
      (getShared strHash addr d ig reg).1 = ⟨addr, d, ig⟩ ∧
      (getShared strHash addr d ig reg).2 = ⟨addr, d, ig⟩ :: reg) ∧
    getShared strHash addr2 d ig (getShared strHash addr d ig reg).2
      = getShared strHash addr d ig reg := by
  have hprobe : WatcherCompare (⟨addr2, d, ig⟩ : WatcherRef) ⟨addr, d, ig⟩ = true := by
    simp [WatcherCompare_iff]
  cases hf : findShared strHash ⟨addr, d, ig⟩ reg with
  | none =>
    have hno := findShared_none strHash _ reg hf
    rw [getShared_of_none strHash addr d ig reg hf]
    refine ⟨?_, fun _ => ⟨rfl, rfl⟩, ?_⟩
    · rintro ⟨e, he, hce⟩
      rw [hno e he] at hce
      exact absurd hce (by simp)
    · apply getShared_of_some
      rw [findShared_probe strHash _ _ _ hprobe, findShared_eq]
      simp [List.find?, WatcherCompare_refl]
  | some found =>
    obtain ⟨hmem, hc⟩ := findShared_some strHash _ found reg hf
    rw [getShared_of_some strHash addr d ig reg found hf]
    refine ⟨fun _ => ⟨hmem, hc, rfl, ?_⟩, ?_, ?_⟩
    · intro hpw e2 he2 hc2
      by_contra hne
      have hcc : WatcherCompare e2 found = true :=
        WatcherCompare_trans hc2 (WatcherCompare_symm hc)
      rcases List.mem_iff_getElem.1 he2 with ⟨i, hi, rfl⟩
      rcases List.mem_iff_getElem.1 hmem with ⟨j, hj, hjf⟩
      subst hjf
      rcases Nat.lt_trichotomy i j with hlt | heq | hgt
      · have := List.pairwise_iff_getElem.1 hpw i j hi hj hlt
        rw [hcc] at this
        exact absurd this (by simp)
      · subst heq
        exact hne rfl
      · have := List.pairwise_iff_getElem.1 hpw j i hj hi hgt
        rw [WatcherCompare_symm hcc] at this
        exact absurd this (by simp)
    · intro hno
      rw [hno found hmem] at hc
      exact absurd hc (by simp)
    · apply getShared_of_some
      rw [findShared_probe strHash _ _ _ hprobe]
      exact hf

/-- C1 at a registry holding one watcher for `("/a", {"x","y"})`: the lookup
with the ignore set written in another order returns that watcher. -/
theorem getShared_shares_witness :
    (getShared (fun s => s.length) 7 "/a" ["y", "x"] [⟨3, "/a", ["x", "y"]⟩]).1
        = ⟨3, "/a", ["x", "y"]⟩ ∧
    (getShared (fun s => s.length) 7 "/b" [] [⟨3, "/a", ["x", "y"]⟩]).2
        = [⟨7, "/b", []⟩, ⟨3, "/a", ["x", "y"]⟩] := by
  have h1 := (getShared_shares (fun s => s.length) 7 8 "/a" ["y", "x"]
    [⟨3, "/a", ["x", "y"]⟩]).1 ⟨⟨3, "/a", ["x", "y"]⟩, by simp, by decide⟩
  have h2 := (getShared_shares (fun s => s.length) 7 8 "/b" []
    [⟨3, "/a", ["x", "y"]⟩]).2.1 (by decide)
  refine ⟨?_, h2.2⟩
  exact (h1.2.2.2 (by simp) _ (by simp) (by decide)).symm

/-! ## Registration -/

theorem insertCallback_mem (place : Callback → List Callback → Nat) (x : Callback)
    (l : List Callback) : x ∈ (insertCallback place x l).1 := by
  unfold insertCallback
  split
  · assumption
  · simp

theorem insertCallback_second (place : Callback → List Callback → Nat) (x : Callback)
    (l : List Callback) : (insertCallback place x l).2 = true ↔ x ∉ l := by
  unfold insertCallback
  split <;> simp [*]

theorem insertCallback_present (place : Callback → List Callback → Nat) (x : Callback)
    (l : List Callback) (h : x ∈ l) : insertCallback place x l = (l, false) := by
  simp [insertCallback, h]

/-- C2: `watch(cb)` returns true exactly when `cb` was not registered and the
watcher was not watched; then a fresh wake handle is allocated and
initialised and `mWatched` becomes true.  `cb` is registered afterwards in
every case, and registering a handle already present changes nothing in the
callback set and returns false. -/
theorem watch_result (place : Callback → List Callback → Nat) (cb : Callback) (s : State) :
    ((watch place cb s).1 = true ↔ (cb ∉ s.w.mCallbacks ∧ s.w.mWatched = false)) ∧
    ((watch place cb s).1 = true →
      (watch place cb s).2.w.mAsync = some s.asyncAllocs ∧
      (watch place cb s).2.w.mWatched = true ∧
      (watch place cb s).2.trace.map Prod.fst
        = s.trace.map Prod.fst ++ [Stmt.asyncInit s.asyncAllocs, Stmt.setWatched true]) ∧
    cb ∈ (watch place cb s).2.w.mCallbacks ∧
    (cb ∈ s.w.mCallbacks →
      (watch place cb s).2.w.mCallbacks = s.w.mCallbacks ∧ (watch place cb s).1 = false) := by
  have hmem := insertCallback_mem place cb s.w.mCallbacks
  have hsec := insertCallback_second place cb s.w.mCallbacks
  by_cases hc : (insertCallback place cb s.w.mCallbacks).2 = true ∧ s.w.mWatched = false
  · have hw : watch place cb s = (true,
        { self := s.self
          w := { s.w with mCallbacks := (insertCallback place cb s.w.mCallbacks).1,
                          mAsync := some s.asyncAllocs, mWatched := true }
          sharedWatchers := s.sharedWatchers
          asyncAllocs := s.asyncAllocs + 1
          trace := s.trace ++ [(Stmt.asyncInit s.asyncAllocs,
                      { s.w with mCallbacks := (insertCallback place cb s.w.mCallbacks).1,
                                 mAsync := some s.asyncAllocs })] ++
                    [(Stmt.setWatched true,
                      { s.w with mCallbacks := (insertCallback place cb s.w.mCallbacks).1,
                                 mAsync := some s.asyncAllocs })] }) := by
      simp [watch, hc.1, hc.2, emit]
    rw [hw]
    refine ⟨?_, ?_, hmem, ?_⟩
    · simp [hsec.1 hc.1, hc.2]
    · intro _
      simp
    · intro hin
      exact absurd hin (hsec.1 hc.1)
  · have hw : watch place cb s
        = (false, { s with w := { s.w with mCallbacks := (insertCallback place cb s.w.mCallbacks).1 } }) := by
      simp only [watch]
      rw [if_neg hc]
    rw [hw]
    refine ⟨?_, ?_, hmem, ?_⟩
    · simp only [Bool.false_eq_true, false_iff]
      intro h
      exact hc ⟨hsec.2 h.1, h.2⟩
    · intro h
      exact absurd h (by simp)
    · intro hin
      simp [insertCallback_present place cb _ hin]

/-- C2 on a new watcher: the first `watch(5)` returns true, allocates wake
handle 0 and sets `mWatched`; a second `watch(5)` returns false and keeps the
callback set `[5]`. -/
theorem watch_result_witness :
    (watch placeLast 5 (newState 1 "/a" [])).1 = true ∧
    (watch placeLast 5 (newState 1 "/a" [])).2.w.mAsync = some 0 ∧
    (watch placeLast 5 (newState 1 "/a" [])).2.w.mWatched = true ∧
    (watch placeLast 5 (watch placeLast 5 (newState 1 "/a" [])).2).1 = false ∧
    (watch placeLast 5 (watch placeLast 5 (newState 1 "/a" [])).2).2.w.mCallbacks = [5] := by
  have h1 := watch_result placeLast 5 (newState 1 "/a" [])
  have ht : (watch placeLast 5 (newState 1 "/a" [])).1 = true := h1.1.2 ⟨by decide, by decide⟩
  have h2 := watch_result placeLast 5 (watch placeLast 5 (newState 1 "/a" [])).2
  have h3 := h2.2.2.2 h1.2.2.1
  refine ⟨ht, (h1.2.1 ht).1, (h1.2.1 ht).2.1, h3.2, ?_⟩
  rw [h3.1]
  decide

/-! ## Removal -/

theorem eraseCallback_none (cb : Callback) (l : List Callback) :
    eraseCallback cb l = none ↔ cb ∉ l := by
  induction l with
  | nil => simp [eraseCallback]
  | cons a t ih =>
    by_cases h : a = cb
    · simp [eraseCallback, h]
    · have h2 : ¬ cb = a := fun e => h e.symm
      simp [eraseCallback, h, h2, ih]

theorem eraseCallback_some (cb : Callback) (l : List Callback) (r : List Callback)
    (n : Option Callback) (h : eraseCallback cb l = some (r, n)) :
    cb ∈ l ∧ r = l.erase cb ∧ n = nextCallback cb l := by
  induction l generalizing r n with
  | nil => simp [eraseCallback] at h
  | cons a t ih =>
    by_cases hac : a = cb
    · subst hac
      simp [eraseCallback] at h
      simp [nextCallback, h.1.symm, h.2.symm]
    · have h2 : ¬ cb = a := fun e => hac e.symm
      simp only [eraseCallback, if_neg hac, Option.map_eq_some', Prod.mk.injEq] at h
      obtain ⟨⟨r2, n2⟩, he, hr, hn⟩ := h
      obtain ⟨hm, hr2, hn2⟩ := ih r2 n2 he
      simp only at hr hn
      refine ⟨List.mem_cons_of_mem _ hm, ?_, ?_⟩
      · rw [← hr, hr2, List.erase_cons_tail]
        simpa using hac
      · rw [← hn, hn2]
        simp [nextCallback, hac]

theorem unref_callbacks (s : State) : (unref s).w.mCallbacks = s.w.mCallbacks := by
  unfold unref
  split
  · split <;> simp [emit]
  · rfl

/-- The callback set after `unwatch(cb)` is the old one without `cb`. -/
theorem unwatch_callbacks (cb : Callback) (s : State) :
    (unwatch cb s).2.w.mCallbacks = s.w.mCallbacks.erase cb := by
  unfold unwatch
  cases he : eraseCallback cb s.w.mCallbacks with
  | none =>
    have := (eraseCallback_none cb _).1 he
    simp [List.erase_of_not_mem this]
  | some p =>
    obtain ⟨r, n⟩ := p
    obtain ⟨_, hr, _⟩ := eraseCallback_some cb _ r n he
    simp only
    split
    · simp [unref_callbacks, hr]
    · simp [hr]

theorem unwatch_absent (cb : Callback) (s : State) (h : cb ∉ s.w.mCallbacks) :
    unwatch cb s = (false, s) := by
  simp [unwatch, (eraseCallback_none cb _).2 h]

/-- C3: `unwatch(cb)` returns true exactly when `cb` was registered and the
callback set is empty once it is removed.  For a handle that is not
registered it returns false and changes nothing (callback set, `mWatched`,
registry and everything else); so does a second `unwatch` of the same handle. -/
theorem unwatch_result (cb : Callback) (s : State) :
    ((unwatch cb s).1 = true ↔ (cb ∈ s.w.mCallbacks ∧ s.w.mCallbacks.erase cb = [])) ∧
    (unwatch cb s).2.w.mCallbacks = s.w.mCallbacks.erase cb ∧
    (cb ∉ s.w.mCallbacks → unwatch cb s = (false, s)) ∧
    (s.w.mCallbacks.Nodup → unwatch cb (unwatch cb s).2 = (false, (unwatch cb s).2)) := by
  refine ⟨?_, unwatch_callbacks cb s, unwatch_absent cb s, ?_⟩
  · unfold unwatch
    cases he : eraseCallback cb s.w.mCallbacks with
    | none =>
      have := (eraseCallback_none cb _).1 he
      simp [this]
    | some p =>
      obtain ⟨r, n⟩ := p
      obtain ⟨hm, hr, _⟩ := eraseCallback_some cb _ r n he
      simp only
      split
      · rename_i hl
        simp only [List.length_eq_zero] at hl
        simp [hm, ← hr, hl]
      · rename_i hl
        simp only [List.length_eq_zero] at hl
        simp [← hr, hl]
  · intro hnd
    apply unwatch_absent
    rw [unwatch_callbacks]
    exact fun h => (List.Nodup.mem_erase_iff hnd).1 h |>.1 rfl

/-- C3 on a watcher with the single callback 5: the first `unwatch(5)` returns
true, the second returns false and changes nothing, and `unwatch(6)` of a
handle never registered returns false. -/
theorem unwatch_result_witness :
    (unwatch 5 (watch placeLast 5 (newState 1 "/a" [])).2).1 = true ∧
    unwatch 5 (unwatch 5 (watch placeLast 5 (newState 1 "/a" [])).2).2
      = (false, (unwatch 5 (watch placeLast 5 (newState 1 "/a" [])).2).2) ∧
    unwatch 6 (watch placeLast 5 (newState 1 "/a" [])).2
      = (false, (watch placeLast 5 (newState 1 "/a" [])).2) := by
  have h := unwatch_result 5 (watch placeLast 5 (newState 1 "/a" [])).2
  have h6 := unwatch_result 6 (watch placeLast 5 (newState 1 "/a" [])).2
  exact ⟨h.1.2 ⟨by decide, by decide⟩, h.2.2.2 (by decide), h6.2.2.1 (by decide)⟩

/-! ## The dispatch pass -/

theorem calls_append (t u : List (Stmt × Watcher)) : calls (t ++ u) = calls t ++ calls u := by
  induction t with
  | nil => rfl
  | cons x t ih =>
    obtain ⟨st, w⟩ := x
    cases st <;> simp [calls, ih]

/-- C4 fails as stated: with a container that appends new handles, the pass
over `[1, 2, 3]` in which 1 unregisters 1 and 2 and registers 4 invokes
1, 3 and then 4. -/
theorem fireCallbacks_scenario_invokes_new :
    ∃ s1, fireCallbacks placeLast (scenarioBeh 1 2 4) 4 scenarioState = Outcome.done s1 ∧
      calls s1.trace = [1, 3, 4] :=
  ⟨_, rfl, by decide⟩

theorem take_drop_singleton (p c d : Callback) :
    List.take p [c] ++ d :: List.drop p [c] = if p = 0 then [d, c] else [c, d] := by
  cases p with
  | zero => simp
  | succ n => simp

/-- C4, amended: in the pass over `[a, b, c]` where `a` unregisters itself and
`b` and registers the new handle `d`, `a` is invoked once, `b` never and `c`
once; `d` is not invoked when the container puts it before `c` in the
iteration order, and is invoked once, after `c`, when it puts it after `c`. -/
theorem fireCallbacks_scenario (place : Callback → List Callback → Nat) (a b c d : Callback)
    (fuel : Nat) (s : State) (hs : s.w.mCallbacks = [a, b, c])
    (hab : a ≠ b) (hac : a ≠ c) (had : a ≠ d) (hbc : b ≠ c) (hbd : b ≠ d) (hcd : c ≠ d) :
    ∃ s1, fireCallbacks place (scenarioBeh a b d) (fuel + 4) s = Outcome.done s1 ∧
      calls s1.trace = calls s.trace ++ (if place d [c] = 0 then [a, c] else [a, c, d]) ∧
      s1.w.mCallbacks = (if place d [c] = 0 then [d, c] else [c, d]) := by
  obtain ⟨self, w, reg, n, tr⟩ := s
  obtain ⟨dir, ig, wd, as, cc, cbs, it, ev, cev, sg⟩ := w
  simp only at hs
  subst hs
  have hba := hab.symm
  have hca := hac.symm
  have hda := had.symm
  have hcb := hbc.symm
  have hdb := hbd.symm
  have hdc := hcd.symm
  by_cases hp : place d [c] = 0
  · cases wd <;>
      simp [fireCallbacks, fireLoop, runOps, runOp, unwatch, eraseCallback, watch,
        insertCallback, emit, nextCallback, fireFinish, signalNotify, calls, calls_append,
        scenarioBeh,
        Outcome.andThen,
        take_drop_singleton, hp, *]
  · cases wd <;>
      simp [fireCallbacks, fireLoop, runOps, runOp, unwatch, eraseCallback, watch,
        insertCallback, emit, nextCallback, fireFinish, signalNotify, calls, calls_append,
        scenarioBeh,
        Outcome.andThen,
        take_drop_singleton, hp, *]

/-- C4, amended, at `[1, 2, 3]` with a container that puts new handles first:
the pass invokes 1 and 3 only. -/
theorem fireCallbacks_scenario_witness :
    ∃ s1, fireCallbacks placeFirst (scenarioBeh 1 2 4) 4 scenarioState = Outcome.done s1 ∧
      calls s1.trace = [1, 3] ∧ s1.w.mCallbacks = [4, 3] := by
  obtain ⟨s1, h1, h2, h3⟩ := fireCallbacks_scenario placeFirst 1 2 3 4 0 scenarioState rfl
    (by decide) (by decide) (by decide) (by decide) (by decide) (by decide)
  exact ⟨s1, h1, h2, h3⟩

/-- C5 on the code: in the pass over `[1, 2, 3, 4]` where 1 unregisters 3, the
cursor jumps to 4 and callback 2 is never invoked although it stays
registered; in the pass over `[1, 2, 3]` where 3 unregisters 1, the cursor
moves back to 2 and callbacks 2 and 3 are invoked twice. -/
theorem fireCallbacks_removal_skips_and_repeats :
    (∃ s1, fireCallbacks placeLast aheadBeh 5 fourState = Outcome.done s1 ∧
      calls s1.trace = [1, 4] ∧ s1.w.mCallbacks = [1, 2, 4]) ∧
    (∃ s1, fireCallbacks placeLast behindBeh 6 scenarioState = Outcome.done s1 ∧
      calls s1.trace = [1, 2, 3, 2, 3] ∧ s1.w.mCallbacks = [2, 3]) :=
  ⟨⟨_, rfl, by decide, by decide⟩, ⟨_, rfl, by decide, by decide⟩⟩

/-! ## The event batches -/

/-- C6 on the code: record 1, trigger, record 2, trigger, dispatch.  The second
`triggerCallbacks` replaces the batch `[1]` before any pass delivered it: the
only batch handed to the callback is `[2]` and `mEvents` is empty, so event 1
is neither delivered nor pending. -/
theorem triggerCallbacks_overwrites_undelivered_batch :
    ∃ s1, run placeLast
        [Step.record 1, Step.triggerCallbacks, Step.record 2, Step.triggerCallbacks,
          Step.fireCallbacks quietBeh 2] oneCallbackState = Outcome.done s1 ∧
      batches s1.trace = [[2]] ∧ s1.w.mEvents = [] ∧ s1.w.mCallbacks = [5] :=
  ⟨_, rfl, by decide, by decide, by decide⟩

/-- C8: with an empty callback set, whatever `mEvents` holds, `notify` only
wakes the waiters and requests no debounce trigger, and `triggerCallbacks`
returns at once without sending a wake and without touching any member. -/
theorem idle_watcher_no_trigger (s : State) (h : s.w.mCallbacks = []) :
    notify s = emit Stmt.condNotifyAll s ∧
    (notify s).trace.map Prod.fst = s.trace.map Prod.fst ++ [Stmt.condNotifyAll] ∧
    triggerCallbacks s = Outcome.done s := by
  refine ⟨?_, ?_, ?_⟩
  · simp [notify, emit, h]
  · simp [notify, emit, h]
  · simp [triggerCallbacks, h]

/-- C8 on a new watcher with two pending events and no callback. -/
theorem idle_watcher_no_trigger_witness :
    (notify (recordEvent 2 (recordEvent 1 (newState 1 "/a" [])))).trace.map Prod.fst
      = [Stmt.condNotifyAll] ∧
    triggerCallbacks (recordEvent 2 (recordEvent 1 (newState 1 "/a" [])))
      = Outcome.done (recordEvent 2 (recordEvent 1 (newState 1 "/a" []))) := by
  have h := idle_watcher_no_trigger (recordEvent 2 (recordEvent 1 (newState 1 "/a" []))) rfl
  exact ⟨h.2.1, h.2.2⟩

/-! ## Properties kept by every call -/

theorem runOps_preserved (place : Callback → List Callback → Nat) (P : State → Prop)
    (hop : ∀ o s, P s → P (runOp place o s)) :
    ∀ (os : List Op) (s : State), P s → P (runOps place os s) := by
  intro os
  induction os with
  | nil => intro s h; exact h
  | cons o os ih => intro s h; exact ih _ (hop o s h)

theorem fireLoop_preserved (place : Callback → List Callback → Nat)
    (beh : Nat → Callback → List Op) (P : State → Prop)
    (hop : ∀ o s, P s → P (runOp place o s))
    (hcall : ∀ cb s, P s → P (emit (Stmt.call cb s.w.mCallbackEvents) s))
    (hit : ∀ it s, P s → P { s with w := { s.w with mCallbacksIterator := it } }) :
    ∀ (fuel k : Nat) (s : State), P s → P (fireLoop place beh fuel k s).state := by
  intro fuel
  induction fuel with
  | zero => intro k s h; exact h
  | succ n ih =>
    intro k s h
    unfold fireLoop
    cases hc : s.w.mCallbacksIterator with
    | none => exact h
    | some it =>
      simp only
      apply ih
      have h2 := runOps_preserved place P hop (beh k it) _ (hcall it s h)
      split
      · exact hit _ _ h2
      · exact h2

theorem stable_runOp {place : Callback → List Callback → Nat} {P : State → Prop}
    (hP : Stable place P) (o : Op) (s : State) (h : P s) : P (runOp place o s) := by
  cases o with
  | watch cb => exact hP.watch cb s h
  | unwatch cb => exact hP.unwatch cb s h
  | unref => exact hP.unref s h

theorem stable_setIterator {place : Callback → List Callback → Nat} {P : State → Prop}
    (hP : Stable place P) (it : Option Callback) (s : State) (h : P s) :
    P { s with w := { s.w with mCallbacksIterator := it } } :=
  hP.frame s s.w.mCallingCallbacks it s.w.mEvents s.w.mCallbackEvents s.w.mCallbackSignal h

theorem stable_setCalling {place : Callback → List Callback → Nat} {P : State → Prop}
    (hP : Stable place P) (cc : Bool) (s : State) (h : P s) :
    P { s with w := { s.w with mCallingCallbacks := cc } } :=
  hP.frame s cc s.w.mCallbacksIterator s.w.mEvents s.w.mCallbackEvents s.w.mCallbackSignal h

theorem stable_setSignal {place : Callback → List Callback → Nat} {P : State → Prop}
    (hP : Stable place P) (sg : Bool) (s : State) (h : P s) :
    P { s with w := { s.w with mCallbackSignal := sg } } :=
  hP.frame s s.w.mCallingCallbacks s.w.mCallbacksIterator s.w.mEvents s.w.mCallbackEvents sg h

theorem stable_setEvents {place : Callback → List Callback → Nat} {P : State → Prop}
    (hP : Stable place P) (ev cev : List Event) (s : State) (h : P s) :
    P { s with w := { s.w with mCallbackEvents := cev, mEvents := ev } } :=
  hP.frame s s.w.mCallingCallbacks s.w.mCallbacksIterator ev cev s.w.mCallbackSignal h

theorem stable_fireFinish {place : Callback → List Callback → Nat} {P : State → Prop}
    (hP : Stable place P) (s : State) (h : P s) : P (fireFinish s) := by
  unfold WatcherModel.fireFinish WatcherModel.signalNotify
  apply stable_setSignal hP
  refine hP.emit Stmt.signalNotify _ rfl ?_
  split
  · exact hP.unref _ (stable_setCalling hP false s h)
  · exact stable_setCalling hP false s h

theorem stable_fireCallbacks {place : Callback → List Callback → Nat} {P : State → Prop}
    (hP : Stable place P) (beh : Nat → Callback → List Op) (fuel : Nat) (s : State) (h : P s) :
    P (fireCallbacks place beh fuel s).state := by
  unfold WatcherModel.fireCallbacks
  have h2 := fireLoop_preserved place beh P (stable_runOp hP)
    (fun cb s h => hP.emit (Stmt.call cb s.w.mCallbackEvents) s rfl h)
    (stable_setIterator hP) fuel 0 _
    (stable_setIterator hP (s.w.mCallbacks.head?) _ (stable_setCalling hP true s h))
  simp only
  cases hl : fireLoop place beh fuel 0
      { s with w := { s.w with mCallingCallbacks := true,
                               mCallbacksIterator := s.w.mCallbacks.head? } } with
  | done s3 =>
    rw [hl] at h2
    exact stable_fireFinish hP s3 h2
  | stuck s3 =>
    rw [hl] at h2
    exact h2

theorem stable_triggerCallbacks {place : Callback → List Callback → Nat} {P : State → Prop}
    (hP : Stable place P) (s : State) (h : P s) : P (triggerCallbacks s).state := by
  unfold WatcherModel.triggerCallbacks signalWait signalReset
  split
  · split
    · split
      · exact hP.emit _ _ rfl (stable_setEvents hP [] _ _ (stable_setSignal hP false s h))
      · exact h
    · exact hP.emit _ _ rfl (stable_setEvents hP [] _ _ h)
  · exact h

theorem stable_notify {place : Callback → List Callback → Nat} {P : State → Prop}
    (hP : Stable place P) (s : State) (h : P s) : P (notify s) := by
  unfold WatcherModel.notify
  simp only
  split
  · exact hP.emit _ _ rfl (hP.emit _ _ rfl h)
  · exact hP.emit _ _ rfl h

theorem stable_recordEvent {place : Callback → List Callback → Nat} {P : State → Prop}
    (hP : Stable place P) (e : Event) (s : State) (h : P s) : P (recordEvent e s) :=
  stable_setEvents hP (s.w.mEvents ++ [e]) s.w.mCallbackEvents s h

theorem stable_step {place : Callback → List Callback → Nat} {P : State → Prop}
    (hP : Stable place P) (st : Step) (s : State) (h : P s) : P (step place st s).state := by
  cases st with
  | watch cb => exact hP.watch cb s h
  | unwatch cb => exact hP.unwatch cb s h
  | unref => exact hP.unref s h
  | notify => exact stable_notify hP s h
  | record e => exact stable_recordEvent hP e s h
  | triggerCallbacks => exact stable_triggerCallbacks hP s h
  | fireCallbacks beh fuel => exact stable_fireCallbacks hP beh fuel s h

/-- A stable property that holds before a sequence of calls holds in the state
the sequence reaches, whether it ran to its end or got stuck on the way. -/
theorem stable_run {place : Callback → List Callback → Nat} {P : State → Prop}
    (hP : Stable place P) : ∀ (steps : List Step) (s : State), P s →
      P (run place steps s).state := by
  intro steps
  induction steps with
  | nil => intro s h; exact h
  | cons st rest ih =>
    intro s h
    have h1 := stable_step hP st s h
    unfold WatcherModel.run
    cases hs : WatcherModel.step place st s with
    | done s1 =>
      rw [hs] at h1
      exact ih s1 h1
    | stuck s1 =>
      rw [hs] at h1
      exact h1

/-! ## Teardown -/

theorem guardedSince_refl (s : State) : GuardedSince s s :=
  ⟨[], by simp, by simp, by intro h1 h2; rw [h1] at h2; exact absurd h2 (by simp), by simp⟩

theorem guardedSince_trans {a b c : State} (h1 : GuardedSince a b) (h2 : GuardedSince b c) :
    GuardedSince a c := by
  obtain ⟨t, ht, hg, hw, hr⟩ := h1
  obtain ⟨u, hu, hg2, hw2, hr2⟩ := h2
  refine ⟨t ++ u, by rw [hu, ht, List.append_assoc], ?_, ?_, ?_⟩
  · intro e he
    rcases List.mem_append.1 he with h | h
    · exact hg e h
    · exact hg2 e h
  · intro ha hc
    rw [List.map_append, List.mem_append]
    cases hb : b.w.mWatched
    · exact Or.inl (hw ha hb)
    · exact Or.inr (hw2 hb hc)
  · intro hne
    rw [List.map_append, List.mem_append]
    by_cases hb : b.sharedWatchers = a.sharedWatchers
    · exact Or.inr (hr2 (fun h => hne (h.trans hb)))
    · exact Or.inl (hr hb)

/-- A change that leaves the trace, `mWatched` and the registry alone. -/
theorem guardedSince_of_same {s s2 : State} (ht : s2.trace = s.trace)
    (hw : s2.w.mWatched = s.w.mWatched) (hr : s2.sharedWatchers = s.sharedWatchers) :
    GuardedSince s s2 :=
  ⟨[], by simp [ht], by simp, by intro h1 h2; rw [hw, h1] at h2; exact absurd h2 (by simp),
    by intro h; exact absurd hr h⟩

theorem guardedSince_unref (s : State) : GuardedSince s (unref s) := by
  unfold WatcherModel.unref
  split
  · rename_i hg
    obtain ⟨hc, hcc⟩ := hg
    have hc2 : s.w.mCallbacks = [] := List.length_eq_zero.1 hc
    split
    · refine ⟨[(Stmt.setWatched false, s.w),
          (Stmt.uvClose s.w.mAsync, { s.w with mWatched := false }),
          (Stmt.removeShared, { s.w with mWatched := false })], by simp [emit], ?_, ?_, ?_⟩
      · intro e he _
        simp only [List.mem_cons, List.mem_singleton, List.not_mem_nil, or_false] at he
        rcases he with rfl | rfl | rfl <;> exact ⟨hc2, hcc⟩
      · intro _ _
        simp
      · intro _
        simp
    · refine ⟨[(Stmt.removeShared, s.w)], by simp [emit], ?_, ?_, ?_⟩
      · intro e he _
        simp only [List.mem_singleton] at he
        subst he
        exact ⟨hc2, hcc⟩
      · intro h1 h2
        simp only [emit] at h2
        rw [h1] at h2
        exact absurd h2 (by simp)
      · intro _
        simp
  · exact guardedSince_refl s

theorem guardedSince_watch (place : Callback → List Callback → Nat) (cb : Callback) (s : State) :
    GuardedSince s (watch place cb s).2 := by
  unfold WatcherModel.watch
  simp only
  split
  · refine ⟨[(Stmt.asyncInit s.asyncAllocs,
          { s.w with mCallbacks := (insertCallback place cb s.w.mCallbacks).1,
                     mAsync := some s.asyncAllocs }),
        (Stmt.setWatched true,
          { s.w with mCallbacks := (insertCallback place cb s.w.mCallbacks).1,
                     mAsync := some s.asyncAllocs })], by simp [emit], ?_, ?_, ?_⟩
    · intro e he ht
      simp only [List.mem_cons, List.mem_singleton, List.not_mem_nil, or_false] at he
      rcases he with rfl | rfl <;> simp [isTeardown] at ht
    · intro _ h2
      simp [emit] at h2
    · intro h
      simp [emit] at h
  · exact guardedSince_of_same rfl rfl rfl

theorem guardedSince_unwatch (cb : Callback) (s : State) : GuardedSince s (unwatch cb s).2 := by
  unfold WatcherModel.unwatch
  split
  · simp only
    split
    · exact guardedSince_trans (guardedSince_of_same rfl rfl rfl) (guardedSince_unref _)
    · exact guardedSince_of_same rfl rfl rfl
  · exact guardedSince_refl s

theorem guardedSince_emit (st : Stmt) (s : State) (h : isQuiet st = true) :
    GuardedSince s (emit st s) := by
  refine ⟨[(st, s.w)], rfl, ?_, ?_, ?_⟩
  · intro e he ht
    simp only [List.mem_singleton] at he
    subst he
    cases st <;> simp [isTeardown, isQuiet] at ht h
  · intro h1 h2
    simp only [WatcherModel.emit] at h2
    rw [h1] at h2
    exact absurd h2 (by simp)
  · intro hne
    simp [WatcherModel.emit] at hne

/-- Every primitive change keeps `GuardedSince s0`. -/
theorem guardedSince_stable (place : Callback → List Callback → Nat) (s0 : State) :
    Stable place (GuardedSince s0) where
  watch := fun cb s h => guardedSince_trans h (guardedSince_watch place cb s)
  unwatch := fun cb s h => guardedSince_trans h (guardedSince_unwatch cb s)
  unref := fun s h => guardedSince_trans h (guardedSince_unref s)
  emit := fun st s hq h => guardedSince_trans h (guardedSince_emit st s hq)
  frame := fun _ _ _ _ _ _ h => guardedSince_trans h (guardedSince_of_same rfl rfl rfl)

/-- C9: over every sequence of `watch`, `unwatch`, `unref`, `notify`,
`triggerCallbacks` and `fireCallbacks` calls, with callbacks making any
reentrant calls, from every state, and also when the sequence gets stuck:
each statement run since the start that clears `mWatched`, closes the wake
handle or calls `removeShared` ran while the callback set was empty and
`mCallingCallbacks` was false; `mWatched` does not go from true to false and
the registry does not change without such a statement. -/
theorem teardown_guarded (place : Callback → List Callback → Nat) (steps : List Step)
    (s : State) :
    ∃ t, (run place steps s).state.trace = s.trace ++ t ∧
      (∀ e ∈ t, isTeardown e.1 = true → e.2.mCallbacks = [] ∧ e.2.mCallingCallbacks = false) ∧
      (s.w.mWatched = true → (run place steps s).state.w.mWatched = false →
        Stmt.setWatched false ∈ t.map Prod.fst) ∧
      ((run place steps s).state.sharedWatchers ≠ s.sharedWatchers →
        Stmt.removeShared ∈ t.map Prod.fst) :=
  stable_run (guardedSince_stable place s) steps s (guardedSince_refl s)

theorem unref_of_calling (s : State) (h : s.w.mCallingCallbacks = true) : unref s = s := by
  simp [WatcherModel.unref, h]

theorem watch_of_watched (place : Callback → List Callback → Nat) (cb : Callback) (s : State)
    (h : s.w.mWatched = true) :
    (watch place cb s).2
      = { s with w := { s.w with mCallbacks := (insertCallback place cb s.w.mCallbacks).1 } } := by
  simp [WatcherModel.watch, h]

theorem duringPass_runOp (place : Callback → List Callback → Nat) (s0 : State) (o : Op)
    (s : State) (h : DuringPass s0 s) : DuringPass s0 (runOp place o s) := by
  obtain ⟨hc, hw, ha, hr, hs, ht⟩ := h
  cases o with
  | watch cb =>
    simp only [WatcherModel.runOp, watch_of_watched place cb s hw]
    exact ⟨hc, hw, ha, hr, hs, ht⟩
  | unwatch cb =>
    simp only [WatcherModel.runOp, WatcherModel.unwatch]
    cases he : eraseCallback cb s.w.mCallbacks with
    | none => exact ⟨hc, hw, ha, hr, hs, ht⟩
    | some p =>
      obtain ⟨cbs, nxt⟩ := p
      simp only
      split
      · show DuringPass s0 (unref _)
        rw [unref_of_calling]
        · exact ⟨hc, hw, ha, hr, hs, ht⟩
        · exact hc
      · exact ⟨hc, hw, ha, hr, hs, ht⟩
  | unref =>
    simp only [WatcherModel.runOp, unref_of_calling s hc]
    exact ⟨hc, hw, ha, hr, hs, ht⟩

theorem duringPass_call (s0 : State) (cb : Callback) (s : State) (h : DuringPass s0 s) :
    DuringPass s0 (emit (Stmt.call cb s.w.mCallbackEvents) s) := by
  obtain ⟨hc, hw, ha, hr, hs, t, ht, hq⟩ := h
  refine ⟨hc, hw, ha, hr, hs, t ++ [(Stmt.call cb s.w.mCallbackEvents, s.w)], ?_, ?_⟩
  · simp [emit, ht]
  · intro e he
    rcases List.mem_append.1 he with h1 | h1
    · exact hq e h1
    · simp only [List.mem_singleton] at h1
      subst h1
      rfl

theorem removeShared_absent (a : Nat) (reg : List WatcherRef)
    (h : (reg.map WatcherRef.addr).Nodup) : ∀ r ∈ removeShared a reg, r.addr ≠ a := by
  induction reg with
  | nil => simp [removeShared]
  | cons x rest ih =>
    simp only [List.map_cons, List.nodup_cons] at h
    unfold removeShared
    split
    · rename_i hx
      intro r hr hra
      exact h.1 (List.mem_map.2 ⟨r, hr, by rw [hra, hx]⟩)
    · rename_i hx
      intro r hr
      rcases List.mem_cons.1 hr with h1 | h1
      · rw [h1]; exact hx
      · exact ih h.2 r h1

theorem fireFinish_callbacks (s : State) : (fireFinish s).w.mCallbacks = s.w.mCallbacks := by
  unfold fireFinish signalNotify
  simp only [emit]
  split
  · exact unref_callbacks _
  · rfl

/-- C7: an `unwatch` that removes the last callback while `mCallingCallbacks`
is true empties the callback set and does nothing else: no statement is
traced, `mWatched`, the wake handle and the registry stay.  When a pass on a
watched watcher returns with the callback set empty, no teardown statement
ran inside the loop, and after it `fireCallbacks` cleared `mWatched`, closed
the wake handle and removed the watcher from the registry. -/
theorem deferred_teardown (place : Callback → List Callback → Nat)
    (beh : Nat → Callback → List Op) (fuel : Nat) (cb : Callback) (s s1 : State) :
    (s.w.mCallingCallbacks = true → s.w.mCallbacks = [cb] →
      (unwatch cb s).2.w.mCallbacks = [] ∧ (unwatch cb s).2.trace = s.trace ∧
      (unwatch cb s).2.w.mWatched = s.w.mWatched ∧ (unwatch cb s).2.w.mAsync = s.w.mAsync ∧
      (unwatch cb s).2.sharedWatchers = s.sharedWatchers) ∧
    (s.w.mWatched = true → (s.sharedWatchers.map WatcherRef.addr).Nodup →
      fireCallbacks place beh fuel s = Outcome.done s1 → s1.w.mCallbacks = [] →
      s1.w.mWatched = false ∧ s1.w.mCallingCallbacks = false ∧
      (∀ r ∈ s1.sharedWatchers, r.addr ≠ s.self) ∧
      ∃ mid, s1.trace.map Prod.fst = s.trace.map Prod.fst ++ mid ++
          [Stmt.setWatched false, Stmt.uvClose s.w.mAsync, Stmt.removeShared,
            Stmt.signalNotify] ∧
        ∀ st ∈ mid, isTeardown st = false) := by
  constructor
  · intro hc hcb
    simp [WatcherModel.unwatch, hcb, eraseCallback, unref_of_calling, hc]
  · intro hw hnd hfire hempty
    unfold WatcherModel.fireCallbacks at hfire
    simp only at hfire
    have hstart : DuringPass s
        ({ s with w := { s.w with mCallingCallbacks := true,
                                  mCallbacksIterator := s.w.mCallbacks.head? } } : State) :=
      ⟨rfl, hw, rfl, rfl, rfl, [], by simp, by simp⟩
    have hloop := fireLoop_preserved place beh (DuringPass s) (duringPass_runOp place s)
      (duringPass_call s)
      (fun it x h => ⟨h.1, h.2.1, h.2.2.1, h.2.2.2.1, h.2.2.2.2.1, h.2.2.2.2.2⟩) fuel 0 _ hstart
    cases hl : fireLoop place beh fuel 0
        { s with w := { s.w with mCallingCallbacks := true,
                                 mCallbacksIterator := s.w.mCallbacks.head? } } with
    | stuck s3 =>
      rw [hl] at hfire
      simp [Outcome.andThen] at hfire
    | done s3 =>
      rw [hl] at hfire hloop
      simp only [Outcome.andThen, Outcome.done.injEq] at hfire
      obtain ⟨_, hw3, ha3, hr3, hs3, t, ht, hq⟩ := hloop
      simp only [Outcome.state] at hw3 ha3 hr3 hs3 ht
      have hcb3 : s3.w.mCallbacks = [] := by
        rw [← fireFinish_callbacks, hfire]
        exact hempty
      subst hfire
      refine ⟨?_, ?_, ?_, t.map Prod.fst, ?_, ?_⟩
      · simp [fireFinish, signalNotify, WatcherModel.unref, hcb3, hw3, emit]
      · simp [fireFinish, signalNotify, WatcherModel.unref, hcb3, hw3, emit]
      · have : (fireFinish s3).sharedWatchers = removeShared s.self s.sharedWatchers := by
          simp [fireFinish, signalNotify, WatcherModel.unref, hcb3, hw3, emit, hr3, hs3]
        rw [this]
        exact removeShared_absent _ _ hnd
      · simp [fireFinish, signalNotify, WatcherModel.unref, hcb3, hw3, emit, ht, ha3]
      · intro st hst
        obtain ⟨e, he, rfl⟩ := List.mem_map.1 hst
        exact hq e he

/-- C7 on a watched watcher with the single callback 5 that unregisters itself
when invoked: the pass returns with the watcher torn down. -/
theorem deferred_teardown_witness :
    ∃ s1, fireCallbacks placeLast selfRemoveBeh 2 oneCallbackState = Outcome.done s1 ∧
      s1.w.mWatched = false ∧ s1.sharedWatchers = [] ∧
      s1.trace.map Prod.fst = [Stmt.asyncInit 0, Stmt.setWatched true, Stmt.call 5 [],
        Stmt.setWatched false, Stmt.uvClose (some 0), Stmt.removeShared, Stmt.signalNotify] := by
  refine ⟨_, rfl, ?_, by decide, by decide⟩
  exact ((deferred_teardown placeLast selfRemoveBeh 2 5 oneCallbackState _).2
    (by decide) (by decide) rfl (by decide)).1

/-- C9 on a new watcher: `watch(5)` then `unwatch(5)` tears the watcher down,
and each of the three teardown statements ran with no callback registered
and no pass running. -/
theorem teardown_guarded_witness :
    ∃ t, (run placeLast [Step.watch 5, Step.unwatch 5] (newState 1 "/a" [])).state.trace = t ∧
      t.map Prod.fst = [Stmt.asyncInit 0, Stmt.setWatched true, Stmt.setWatched false,
        Stmt.uvClose (some 0), Stmt.removeShared] ∧
      ∀ e ∈ t, isTeardown e.1 = true → e.2.mCallbacks = [] ∧ e.2.mCallingCallbacks = false := by
  obtain ⟨t, ht, hg, _, _⟩ :=
    teardown_guarded placeLast [Step.watch 5, Step.unwatch 5] (newState 1 "/a" [])
  refine ⟨t, ht, ?_, hg⟩
  have ht2 : (run placeLast [Step.watch 5, Step.unwatch 5] (newState 1 "/a" [])).state.trace = t :=
    ht
  rw [← ht2]
  decide

/-! ## The wake-handle lifecycle -/

theorem lifecycle_emit (st : Stmt) (s : State) :
    lifecycle (emit st s).trace = lifecycle s.trace ++ (if isLifecycle st = true then [st] else []) := by
  simp only [lifecycle, emit, List.map_append, List.filter_append, List.map_cons, List.map_nil]
  cases h : isLifecycle st <;> simp [List.filter, h]

theorem lifecycleInv_unref (s : State) (h : Lifecycle s) : Lifecycle (unref s) := by
  unfold WatcherModel.unref
  split
  · split
    · rename_i hw
      obtain ⟨n, hn, ha, hl⟩ := h.2 hw
      constructor
      · intro _
        change lifecycle (emit Stmt.removeShared (emit (Stmt.uvClose s.w.mAsync)
          { emit (Stmt.setWatched false) s with w := { s.w with mWatched := false } })).trace
            = cycles s.asyncAllocs
        rw [lifecycle_emit, lifecycle_emit]
        change (lifecycle (emit (Stmt.setWatched false) s).trace ++ _) ++ _ = _
        rw [lifecycle_emit, hl, hn, ha]
        simp [isLifecycle, cycles, cycle]
      · intro h2
        simp [emit] at h2
    · rename_i hw
      have hw2 : s.w.mWatched = false := by simpa using hw
      constructor
      · intro _
        change lifecycle (emit Stmt.removeShared s).trace = cycles s.asyncAllocs
        rw [lifecycle_emit, h.1 hw2]
        simp [isLifecycle]
      · intro h2
        simp only [emit] at h2
        rw [hw2] at h2
        exact absurd h2 (by simp)
  · exact h

theorem lifecycleInv_watch (place : Callback → List Callback → Nat) (cb : Callback) (s : State)
    (h : Lifecycle s) : Lifecycle (watch place cb s).2 := by
  unfold WatcherModel.watch
  simp only
  split
  · rename_i hc
    have hw : s.w.mWatched = false := hc.2
    constructor
    · intro h2
      simp [emit] at h2
    · intro _
      refine ⟨s.asyncAllocs, rfl, by simp [emit], ?_⟩
      change lifecycle (emit (Stmt.setWatched true) (emit (Stmt.asyncInit s.asyncAllocs)
        { s with asyncAllocs := s.asyncAllocs + 1,
                 w := { s.w with mCallbacks := (insertCallback place cb s.w.mCallbacks).1,
                                 mAsync := some s.asyncAllocs } })).trace = _
      rw [lifecycle_emit, lifecycle_emit]
      change (lifecycle s.trace ++ _) ++ _ = _
      rw [h.1 hw]
      simp [isLifecycle]
  · exact ⟨h.1, h.2⟩

theorem lifecycleInv_unwatch (cb : Callback) (s : State) (h : Lifecycle s) :
    Lifecycle (unwatch cb s).2 := by
  unfold WatcherModel.unwatch
  cases he : eraseCallback cb s.w.mCallbacks with
  | none => exact h
  | some p =>
    obtain ⟨cbs, nxt⟩ := p
    simp only
    split
    · exact lifecycleInv_unref _ ⟨h.1, h.2⟩
    · exact ⟨h.1, h.2⟩

theorem lifecycleInv_emit (st : Stmt) (s : State) (hq : isQuiet st = true) (h : Lifecycle s) :
    Lifecycle (emit st s) := by
  have hl : lifecycle (WatcherModel.emit st s).trace = lifecycle s.trace := by
    rw [lifecycle_emit]
    cases st <;> simp [isQuiet, isLifecycle] at hq ⊢
  constructor
  · intro hw
    rw [hl]
    exact h.1 hw
  · intro hw
    rw [hl]
    exact h.2 hw

/-- Every primitive change keeps `Lifecycle`. -/
theorem lifecycle_stable (place : Callback → List Callback → Nat) : Stable place Lifecycle where
  watch := lifecycleInv_watch place
  unwatch := lifecycleInv_unwatch
  unref := lifecycleInv_unref
  emit := lifecycleInv_emit
  frame := fun _ _ _ _ _ _ h => ⟨h.1, h.2⟩

theorem lifecycleInv_newState (self : Nat) (dir : String) (ignore : List String) :
    Lifecycle (newState self dir ignore) :=
  ⟨fun _ => rfl, fun h => absurd h (by simp [WatcherModel.newState, newWatcher])⟩

/-- C10 fails as stated: `watch(5)`, `unwatch(5)` tears the watcher down, and
the next `watch(5)` on the same object returns true, allocates the second
wake handle and sets `mWatched` again; after another `unwatch(5)` two handles
were created, two were closed and `mWatched` went from true to false twice. -/
theorem watch_after_teardown_reactivates :
    (run placeLast [Step.watch 5, Step.unwatch 5] (newState 1 "/a" [])).state.w.mWatched = false ∧
    (watch placeLast 5
      (run placeLast [Step.watch 5, Step.unwatch 5] (newState 1 "/a" [])).state).1 = true ∧
    (watch placeLast 5
      (run placeLast [Step.watch 5, Step.unwatch 5] (newState 1 "/a" [])).state).2.w.mWatched
        = true ∧
    (watch placeLast 5
      (run placeLast [Step.watch 5, Step.unwatch 5] (newState 1 "/a" [])).state).2.w.mAsync
        = some 1 ∧
    lifecycle (run placeLast [Step.watch 5, Step.unwatch 5, Step.watch 5, Step.unwatch 5]
      (newState 1 "/a" [])).state.trace
      = [Stmt.asyncInit 0, Stmt.setWatched true, Stmt.setWatched false, Stmt.uvClose (some 0),
         Stmt.asyncInit 1, Stmt.setWatched true, Stmt.setWatched false, Stmt.uvClose (some 1)] := by
  decide

/-- C10, amended: over every sequence of calls on a watcher object since its
construction, wake handles are created and released strictly in turn.  Each
handle is created once and released at most once, after its creation; a new
handle is created only when the previous one was released; `mWatched` goes
from true to false once per released handle.  A torn-down watcher is
activated again by the next `watch` of a new callback, which allocates a new
wake handle and sets `mWatched` back to true. -/
theorem wake_handle_lifecycle (place : Callback → List Callback → Nat) (self : Nat)
    (dir : String) (ignore : List String) (steps : List Step) :
    ((run place steps (newState self dir ignore)).state.w.mWatched = false →
      lifecycle (run place steps (newState self dir ignore)).state.trace
        = cycles (run place steps (newState self dir ignore)).state.asyncAllocs ∧
      ∀ cb, cb ∉ (run place steps (newState self dir ignore)).state.w.mCallbacks →
        (watch place cb (run place steps (newState self dir ignore)).state).1 = true ∧
        (watch place cb (run place steps (newState self dir ignore)).state).2.w.mWatched = true ∧
        (watch place cb (run place steps (newState self dir ignore)).state).2.w.mAsync
          = some (run place steps (newState self dir ignore)).state.asyncAllocs) ∧
    ((run place steps (newState self dir ignore)).state.w.mWatched = true →
      ∃ n, (run place steps (newState self dir ignore)).state.asyncAllocs = n + 1 ∧
        (run place steps (newState self dir ignore)).state.w.mAsync = some n ∧
        lifecycle (run place steps (newState self dir ignore)).state.trace
          = cycles n ++ [Stmt.asyncInit n, Stmt.setWatched true]) := by
  have h := stable_run (lifecycle_stable place) steps _ (lifecycleInv_newState self dir ignore)
  refine ⟨fun hw => ⟨h.1 hw, ?_⟩, h.2⟩
  intro cb hcb
  simp [WatcherModel.watch, insertCallback, hcb, hw, emit]

/-- C10, amended, on the run `watch(5)`, `unwatch(5)`, `watch(6)`: the watcher
is watched again with the second handle after one complete activation. -/
theorem wake_handle_lifecycle_witness :
    ∃ n, (run placeLast [Step.watch 5, Step.unwatch 5, Step.watch 6]
          (newState 1 "/a" [])).state.asyncAllocs = n + 1 ∧
      (run placeLast [Step.watch 5, Step.unwatch 5, Step.watch 6]
          (newState 1 "/a" [])).state.w.mAsync = some n ∧
      lifecycle (run placeLast [Step.watch 5, Step.unwatch 5, Step.watch 6]
          (newState 1 "/a" [])).state.trace
        = cycles n ++ [Stmt.asyncInit n, Stmt.setWatched true] :=
  (wake_handle_lifecycle placeLast 1 "/a" []
    [Step.watch 5, Step.unwatch 5, Step.watch 6]).2 (by decide)

/-! ## The wake-handle member -/

theorem handleKept_unref (s : State) (h : HandleKept s) : HandleKept (unref s) := by
  unfold unref
  split
  · split
    · exact ⟨h.1, fun h2 => by simp [emit] at h2⟩
    · exact ⟨h.1, h.2⟩
  · exact h

theorem handleKept_watch (place : Callback → List Callback → Nat) (cb : Callback) (s : State)
    (h : HandleKept s) : HandleKept (watch place cb s).2 := by
  unfold watch
  simp only
  split
  · exact ⟨by simp [emit], fun _ => by simp [emit]⟩
  · exact ⟨h.1, h.2⟩

theorem handleKept_unwatch (cb : Callback) (s : State) (h : HandleKept s) :
    HandleKept (unwatch cb s).2 := by
  unfold unwatch
  cases he : eraseCallback cb s.w.mCallbacks with
  | none => exact h
  | some p =>
    obtain ⟨cbs, nxt⟩ := p
    simp only
    split
    · exact handleKept_unref _ ⟨h.1, h.2⟩
    · exact ⟨h.1, h.2⟩

/-- Every primitive change keeps `HandleKept`. -/
theorem handleKept_stable (place : Callback → List Callback → Nat) : Stable place HandleKept where
  watch := handleKept_watch place
  unwatch := handleKept_unwatch
  unref := handleKept_unref
  emit := fun _ _ _ h => ⟨h.1, h.2⟩
  frame := fun _ _ _ _ _ _ h => ⟨h.1, h.2⟩

theorem handleKept_newState (self : Nat) (dir : String) (ignore : List String) :
    HandleKept (newState self dir ignore) :=
  ⟨rfl, fun h => absurd h (by simp [newState, newWatcher])⟩

/-- C11 fails as stated: after `watch(5)` and `unwatch(5)` on a new watcher
`mWatched` is false while `mAsync` still holds the closed handle 0. -/
theorem mAsync_survives_teardown :
    (run placeLast [Step.watch 5, Step.unwatch 5] (newState 1 "/a" [])).state.w.mWatched = false ∧
    (run placeLast [Step.watch 5, Step.unwatch 5] (newState 1 "/a" [])).state.w.mAsync = some 0 := by
  decide

/-- C11, amended: in every state reached from a new watcher by any sequence
of calls, `mWatched` true implies that the wake handle is present, and the
wake handle is present exactly when a handle has been allocated since
construction; it is then the newest one, whether closed or not. -/
theorem wake_handle_member (place : Callback → List Callback → Nat) (self : Nat)
    (dir : String) (ignore : List String) (steps : List Step) :
    ((run place steps (newState self dir ignore)).state.w.mWatched = true →
      (run place steps (newState self dir ignore)).state.w.mAsync.isSome = true) ∧
    ((run place steps (newState self dir ignore)).state.w.mAsync.isSome = true ↔
      0 < (run place steps (newState self dir ignore)).state.asyncAllocs) ∧
    (0 < (run place steps (newState self dir ignore)).state.asyncAllocs →
      (run place steps (newState self dir ignore)).state.w.mAsync
        = some ((run place steps (newState self dir ignore)).state.asyncAllocs - 1)) := by
  have h := stable_run (handleKept_stable place) steps _ (handleKept_newState self dir ignore)
  obtain ⟨h1, h2⟩ := h
  refine ⟨?_, ?_, ?_⟩
  · intro hw
    have := h2 hw
    rw [h1, if_neg (by omega)]
    rfl
  · rw [h1]
    split <;> simp <;> omega
  · intro hp
    rw [h1, if_neg (by omega)]

/-- C11, amended, on the run `watch(5)`, `unwatch(5)`, `watch(6)`: the watcher
is watched and `mAsync` is the second handle. -/
theorem wake_handle_member_witness :
    (run placeLast [Step.watch 5, Step.unwatch 5, Step.watch 6]
      (newState 1 "/a" [])).state.w.mAsync.isSome = true ∧
    (run placeLast [Step.watch 5, Step.unwatch 5, Step.watch 6]
      (newState 1 "/a" [])).state.w.mAsync = some (2 - 1) :=
  ⟨(wake_handle_member placeLast 1 "/a" [] [Step.watch 5, Step.unwatch 5, Step.watch 6]).1
      (by decide),
    (wake_handle_member placeLast 1 "/a" [] [Step.watch 5, Step.unwatch 5, Step.watch 6]).2.2
      (by decide)⟩

/-! ## Removal from the registry -/

theorem removeShared_of_absent (a : Nat) (reg : List WatcherRef)
    (h : ∀ r ∈ reg, r.addr ≠ a) : removeShared a reg = reg := by
  induction reg with
  | nil => rfl
  | cons x rest ih =>
    have hx := h x (List.mem_cons_self x rest)
    simp only [removeShared, if_neg hx]
    rw [ih (fun r hr => h r (List.mem_cons_of_mem x hr))]

theorem removeShared_filter (a : Nat) (reg : List WatcherRef)
    (h : (reg.map WatcherRef.addr).Nodup) :
    removeShared a reg = reg.filter (fun r => decide (r.addr ≠ a)) := by
  induction reg with
  | nil => rfl
  | cons x rest ih =>
    simp only [List.map_cons, List.nodup_cons] at h
    by_cases hx : x.addr = a
    · have hrest : ∀ r ∈ rest, r.addr ≠ a := by
        intro r hr hra
        exact h.1 (List.mem_map.2 ⟨r, hr, by rw [hra, hx]⟩)
      have hf : rest.filter (fun r => !decide (r.addr = a)) = rest :=
        List.filter_eq_self.2 (fun r hr => by simpa using hrest r hr)
      simp [removeShared, hx, List.filter, hf]
    · simp [removeShared, hx, List.filter, ih h.2]

/-- C12: `removeShared(w)` goes by the pointer.  When no entry has the address
`w` the registry is unchanged, whatever directories and ignore sets the
entries have; otherwise (each address occurring once, as in a set of
pointers) the result is the registry without the entry at address `w`, all
other entries kept in place. -/
theorem removeShared_by_reference (a : Nat) (reg : List WatcherRef) :
    ((∀ r ∈ reg, r.addr ≠ a) → removeShared a reg = reg) ∧
    ((reg.map WatcherRef.addr).Nodup →
      removeShared a reg = reg.filter (fun r => decide (r.addr ≠ a)) ∧
      ∀ r, r ∈ removeShared a reg ↔ (r ∈ reg ∧ r.addr ≠ a)) := by
  refine ⟨removeShared_of_absent a reg, fun h => ⟨removeShared_filter a reg h, ?_⟩⟩
  intro r
  rw [removeShared_filter a reg h, List.mem_filter]
  simp

/-- C12 on a registry with two watchers: removing the object at address 7,
whose directory and ignore set equal those of the entry at address 3, changes
nothing; removing the object at address 3 leaves the entry at address 4. -/
theorem removeShared_by_reference_witness :
    WatcherCompare ⟨7, "/a", ["x"]⟩ ⟨3, "/a", ["x"]⟩ = true ∧
    removeShared 7 twoEntries = twoEntries ∧
    removeShared 3 twoEntries = [⟨4, "/b", []⟩] := by
  refine ⟨by decide, (removeShared_by_reference 7 twoEntries).1 (by decide), ?_⟩
  rw [((removeShared_by_reference 3 twoEntries).2 (by decide)).1]
  decide

/-- C14: with a callback registered, events pending and no pass running,
`triggerCallbacks` returns; `mCallbackEvents` is then the old `mEvents`,
`mEvents` is empty, exactly one wake was sent, on the handle `mAsync` of this
watcher, and the callback set, `mWatched`, `mCallingCallbacks` and all other
members are as before. -/
theorem triggerCallbacks_swaps (s : State) (hcb : s.w.mCallbacks ≠ [])
    (hev : s.w.mEvents ≠ []) (hcc : s.w.mCallingCallbacks = false) :
    ∃ s1, triggerCallbacks s = Outcome.done s1 ∧
      s1.w = { s.w with mCallbackEvents := s.w.mEvents, mEvents := [] } ∧
      s1.trace.map Prod.fst = s.trace.map Prod.fst ++ [Stmt.asyncSend s.w.mAsync] ∧
      s1.sharedWatchers = s.sharedWatchers ∧ s1.self = s.self ∧
      s1.asyncAllocs = s.asyncAllocs := by
  have h1 : s.w.mCallbacks.length > 0 := List.length_pos.2 hcb
  have h2 : s.w.mEvents.length > 0 := List.length_pos.2 hev
  refine ⟨emit (Stmt.asyncSend s.w.mAsync)
    { s with w := { s.w with mCallbackEvents := s.w.mEvents, mEvents := [] } }, ?_, ?_⟩
  · simp [triggerCallbacks, h1, h2, hcc, Outcome.andThen]
  · simp [emit]

/-- C14 on a watcher with callback 5 and the pending events 1 and 2. -/
theorem triggerCallbacks_swaps_witness :
    ∃ s1, triggerCallbacks (recordEvent 2 (recordEvent 1 oneCallbackState)) = Outcome.done s1 ∧
      s1.w.mCallbackEvents = [1, 2] ∧ s1.w.mEvents = [] ∧ s1.w.mCallbacks = [5] := by
  obtain ⟨s1, h1, h2, _⟩ := triggerCallbacks_swaps (recordEvent 2 (recordEvent 1 oneCallbackState))
    (by decide) (by decide) (by decide)
  refine ⟨s1, h1, ?_, ?_, ?_⟩ <;> rw [h2] <;> decide

/-! ## Uniqueness in the registry -/

theorem removeShared_sublist (a : Nat) (reg : List WatcherRef) :
    (removeShared a reg).Sublist reg := by
  induction reg with
  | nil => exact List.Sublist.refl _
  | cons x rest ih =>
    unfold removeShared
    split
    · exact List.sublist_cons_self x rest
    · exact ih.cons₂ x

theorem uniqueTargets_getShared (strHash : String → Nat) (addr : Nat) (d : String)
    (ig : List String) (reg : List WatcherRef) (h : UniqueTargets reg) :
    UniqueTargets (getShared strHash addr d ig reg).2 := by
  cases hf : findShared strHash ⟨addr, d, ig⟩ reg with
  | some found =>
    rw [getShared_of_some strHash addr d ig reg found hf]
    exact h
  | none =>
    rw [getShared_of_none strHash addr d ig reg hf]
    refine List.pairwise_cons.2 ⟨?_, h⟩
    intro r hr
    have hno := findShared_none strHash _ reg hf r hr
    cases hc : WatcherCompare ⟨addr, d, ig⟩ r
    · rfl
    · rw [WatcherCompare_symm hc] at hno
      exact absurd hno (by simp)

theorem uniqueTargets_run (strHash : String → Nat) :
    ∀ (cs : List RegCall) (reg : List WatcherRef), UniqueTargets reg →
      UniqueTargets (runRegistry strHash cs reg) := by
  intro cs
  induction cs with
  | nil => intro reg h; exact h
  | cons c rest ih =>
    intro reg h
    cases c with
    | getShared a d ig => exact ih _ (uniqueTargets_getShared strHash a d ig reg h)
    | removeShared w => exact ih _ (List.Pairwise.sublist (removeShared_sublist w reg) h)

theorem uniqueTargets_eq (reg : List WatcherRef) (h : UniqueTargets reg) (i j : Nat)
    (hi : i < reg.length) (hj : j < reg.length)
    (hc : WatcherCompare (reg.get ⟨i, hi⟩) (reg.get ⟨j, hj⟩) = true) : i = j := by
  rcases Nat.lt_trichotomy i j with hlt | heq | hgt
  · have := List.pairwise_iff_getElem.1 h i j hi hj hlt
    simp only [List.get_eq_getElem] at hc
    rw [hc] at this
    exact absurd this (by simp)
  · exact heq
  · have := List.pairwise_iff_getElem.1 h j i hj hi hgt
    simp only [List.get_eq_getElem] at hc
    rw [WatcherCompare_symm hc] at this
    exact absurd this (by simp)

/-- C16: in every registry reached from the empty one by `getShared` and
`removeShared` calls, no two entries compare equal: two positions that hold
watchers with equal directory and ignore set are the same position, so each
target has at most one watcher. -/
theorem registry_unique_targets (strHash : String → Nat) (cs : List RegCall) :
    (runRegistry strHash cs []).Pairwise (fun a b => WatcherCompare a b = false) ∧
    ∀ (i j : Nat) (hi : i < (runRegistry strHash cs []).length)
      (hj : j < (runRegistry strHash cs []).length),
      WatcherCompare ((runRegistry strHash cs []).get ⟨i, hi⟩)
        ((runRegistry strHash cs []).get ⟨j, hj⟩) = true → i = j := by
  have h : UniqueTargets (runRegistry strHash cs []) :=
    uniqueTargets_run strHash cs [] List.Pairwise.nil
  exact ⟨h, fun i j hi hj hc => uniqueTargets_eq _ h i j hi hj hc⟩

/-- C16 on a run: two `getShared` for `("/a", {"x","y"})`, one for `"/a"` with
another ignore set, a removal of a pointer that is not registered, and a
further `getShared`: the registry holds one watcher per target. -/
theorem registry_unique_targets_witness :
    runRegistry (fun s => s.length)
        [RegCall.getShared 1 "/a" ["x", "y"], RegCall.getShared 2 "/a" ["y", "x"],
          RegCall.getShared 3 "/a" [], RegCall.removeShared 2,
          RegCall.getShared 4 "/a" ["x", "y"]] []
      = [⟨3, "/a", []⟩, ⟨1, "/a", ["x", "y"]⟩] ∧
    (runRegistry (fun s => s.length)
        [RegCall.getShared 1 "/a" ["x", "y"], RegCall.getShared 2 "/a" ["y", "x"],
          RegCall.getShared 3 "/a" [], RegCall.removeShared 2,
          RegCall.getShared 4 "/a" ["x", "y"]] []).Pairwise
      (fun a b => WatcherCompare a b = false) :=
  ⟨by decide, (registry_unique_targets (fun s => s.length)
    [RegCall.getShared 1 "/a" ["x", "y"], RegCall.getShared 2 "/a" ["y", "x"],
      RegCall.getShared 3 "/a" [], RegCall.removeShared 2,
      RegCall.getShared 4 "/a" ["x", "y"]]).1⟩

/-! ## The hash -/

/-- C20 fails as stated: no string hash and no two watchers on the same
directory, whatever their ignore sets, have different `WatcherHash` values. -/
theorem WatcherHash_never_sees_mIgnore :
    ¬ ∃ (strHash : String → Nat) (a b : WatcherRef),
      a.mDir = b.mDir ∧ WatcherHash strHash a ≠ WatcherHash strHash b := by
  rintro ⟨strHash, a, b, hd, hne⟩
  exact hne (by simp [WatcherHash, hd])

/-- C20, amended: `WatcherHash` is the string hash of the directory alone, so
watchers on the same directory hash alike whatever their ignore sets.  The
identity used for sharing is `WatcherCompare`, over the directory and the
ignore set, and watchers that compare equal hash alike. -/
theorem WatcherHash_directory_only (strHash : String → Nat) (a b : WatcherRef) :
    WatcherHash strHash a = strHash a.mDir ∧
    (a.mDir = b.mDir → WatcherHash strHash a = WatcherHash strHash b) ∧
    (WatcherCompare a b = true → WatcherHash strHash a = WatcherHash strHash b) ∧
    (WatcherCompare a b = true ↔ (a.mDir = b.mDir ∧ ∀ x, x ∈ a.mIgnore ↔ x ∈ b.mIgnore)) :=
  ⟨rfl, fun h => by simp [WatcherHash, h], WatcherHash_of_compare strHash,
    WatcherCompare_iff a b⟩

/-- C20, amended, on two watchers of `"/a"` with the ignore sets `{"x"}` and
`{}`: equal hashes although they do not compare equal. -/
theorem WatcherHash_directory_only_witness :
    WatcherHash (fun s => s.length) ⟨1, "/a", ["x"]⟩
      = WatcherHash (fun s => s.length) ⟨2, "/a", []⟩ ∧
    WatcherCompare ⟨1, "/a", ["x"]⟩ ⟨2, "/a", []⟩ = false :=
  ⟨(WatcherHash_directory_only (fun s => s.length) ⟨1, "/a", ["x"]⟩ ⟨2, "/a", []⟩).2.1 rfl,
    by decide⟩

/-! ## Matching of creation and close -/

theorem scan_filter (l : List Stmt) (a : HandleScan) :
    (l.filter isLifecycle).foldl scanStmt a = l.foldl scanStmt a := by
  induction l generalizing a with
  | nil => rfl
  | cons st rest ih =>
    cases st <;> simp [List.filter, isLifecycle, scanStmt, ih]

theorem scan_cycles (n : Nat) :
    (cycles n).foldl scanStmt { created := [], live := none, ok := true }
      = { created := (List.range n).reverse, live := none, ok := true } := by
  induction n with
  | zero => rfl
  | succ k ih =>
    simp [cycles, cycle, List.foldl_append, ih, scanStmt, List.range_succ]

/-- C18: over every sequence of calls on a watcher since its construction,
with callbacks making any reentrant calls, a scan of the executed statements
finds every `uv_async_init` on a handle not created before and every
`uv_close` on the handle that was created last and not closed since; so no
handle is closed twice and none is closed that was not created.  The handle
left live at the end is `mAsync` when the watcher is watched, and none
otherwise. -/
theorem closes_match_creations (place : Callback → List Callback → Nat) (self : Nat)
    (dir : String) (ignore : List String) (steps : List Step) :
    (scanTrace ((run place steps (newState self dir ignore)).state.trace.map Prod.fst)).ok
      = true ∧
    (scanTrace ((run place steps (newState self dir ignore)).state.trace.map Prod.fst)).live
      = (if (run place steps (newState self dir ignore)).state.w.mWatched = true
          then (run place steps (newState self dir ignore)).state.w.mAsync else none) := by
  have h := stable_run (lifecycle_stable place) steps _ (lifecycleInv_newState self dir ignore)
  have hs : scanTrace ((run place steps (newState self dir ignore)).state.trace.map Prod.fst)
      = (lifecycle (run place steps (newState self dir ignore)).state.trace).foldl scanStmt
          { created := [], live := none, ok := true } := by
    unfold scanTrace lifecycle
    rw [scan_filter]
  rw [hs]
  cases hw : (run place steps (newState self dir ignore)).state.w.mWatched with
  | false =>
    rw [h.1 hw, scan_cycles]
    simp
  | true =>
    obtain ⟨n, _, ha, hl⟩ := h.2 hw
    rw [hl, List.foldl_append, scan_cycles, ha]
    simp [scanStmt]

/-- C18 on the run `watch(5)`, `unwatch(5)`, `watch(6)`, a pass in which 6
unregisters itself, and a late `unref`: two handles are created and each is
closed once. -/
theorem closes_match_creations_witness :
    (run placeLast [Step.watch 5, Step.unwatch 5, Step.watch 6,
        Step.fireCallbacks selfRemoveBeh 3, Step.unref] (newState 1 "/a" [])).state.trace.map
        Prod.fst
      = [Stmt.asyncInit 0, Stmt.setWatched true, Stmt.setWatched false, Stmt.uvClose (some 0),
          Stmt.removeShared, Stmt.asyncInit 1, Stmt.setWatched true, Stmt.call 6 [],
          Stmt.setWatched false, Stmt.uvClose (some 1), Stmt.removeShared, Stmt.signalNotify,
          Stmt.removeShared] ∧
    (scanTrace ((run placeLast [Step.watch 5, Step.unwatch 5, Step.watch 6,
        Step.fireCallbacks selfRemoveBeh 3, Step.unref]
        (newState 1 "/a" [])).state.trace.map Prod.fst)).ok = true :=
  ⟨by decide, (closes_match_creations placeLast 1 "/a" []
    [Step.watch 5, Step.unwatch 5, Step.watch 6, Step.fireCallbacks selfRemoveBeh 3,
      Step.unref]).1⟩

/-! ## Passes with self-removal only -/

theorem nextCallback_append (pre post : List Callback) (cb : Callback) (h : cb ∉ pre) :
    nextCallback cb (pre ++ cb :: post) = post.head? := by
  induction pre with
  | nil => simp [nextCallback]
  | cons a t ih =>
    have ha : a ≠ cb := fun e => h (by simp [e])
    have ht : cb ∉ t := fun e => h (List.mem_cons_of_mem a e)
    simp [nextCallback, ha, ih ht]

theorem eraseCallback_append (pre post : List Callback) (cb : Callback) (h : cb ∉ pre) :
    eraseCallback cb (pre ++ cb :: post) = some (pre ++ post, post.head?) := by
  induction pre with
  | nil => simp [eraseCallback]
  | cons a t ih =>
    have ha : a ≠ cb := fun e => h (by simp [e])
    have ht : cb ∉ t := fun e => h (List.mem_cons_of_mem a e)
    simp [eraseCallback, ha, ih ht]

theorem emit_passState (st : Stmt) (s : State) (cbs : List Callback) (it : Option Callback)
    (t : List (Stmt × Watcher)) :
    emit st (passState s cbs it t)
      = passState s cbs it (t ++ [(st, (passState s cbs it t).w)]) := by
  simp [emit, passState, List.append_assoc]

theorem unwatch_passState (s : State) (pre post : List Callback) (cb : Callback)
    (it : Option Callback) (t : List (Stmt × Watcher)) (hc : s.w.mCallingCallbacks = true)
    (h : cb ∉ pre) :
    (unwatch cb (passState s (pre ++ cb :: post) it t)).2
      = passState s (pre ++ post) post.head? t := by
  have he : eraseCallback cb (passState s (pre ++ cb :: post) it t).w.mCallbacks
      = some (pre ++ post, post.head?) := eraseCallback_append pre post cb h
  unfold unwatch
  rw [he]
  simp only
  split
  · show unref _ = _
    rw [unref_of_calling]
    · rfl
    · exact hc
  · rfl

theorem runOps_unwatch_absent (place : Callback → List Callback → Nat) (cb : Callback) :
    ∀ (os : List Op) (s : State), (∀ o ∈ os, o = Op.unwatch cb) → cb ∉ s.w.mCallbacks →
      runOps place os s = s := by
  intro os
  induction os with
  | nil => intro s _ _; rfl
  | cons o rest ih =>
    intro s ho hcb
    have h1 : o = Op.unwatch cb := ho o (List.mem_cons_self o rest)
    subst h1
    simp only [runOps, runOp, unwatch_absent cb s hcb]
    exact ih s (fun o h => ho o (List.mem_cons_of_mem _ h)) hcb

theorem fireLoop_none (place : Callback → List Callback → Nat) (beh : Nat → Callback → List Op)
    (fuel k : Nat) (s : State) (h : s.w.mCallbacksIterator = none) :
    fireLoop place beh (fuel + 1) k s = Outcome.done s := by
  simp [fireLoop, h]

theorem fireLoop_some (place : Callback → List Callback → Nat) (beh : Nat → Callback → List Op)
    (fuel k : Nat) (s : State) (it : Callback) (h : s.w.mCallbacksIterator = some it) :
    fireLoop place beh (fuel + 1) k s = fireLoop place beh fuel (k + 1) (fireBody place beh k it s) := by
  simp [fireLoop, h, fireBody]

theorem fireBody_stays (place : Callback → List Callback → Nat) (beh : Nat → Callback → List Op)
    (k : Nat) (s : State) (pre post : List Callback) (cb : Callback)
    (t : List (Stmt × Watcher)) (hb : beh k cb = []) (h : cb ∉ pre) :
    fireBody place beh k cb (passState s (pre ++ cb :: post) (some cb) t)
      = passState s ((pre ++ [cb]) ++ post) post.head?
          (t ++ [(Stmt.call cb s.w.mCallbackEvents,
                  (passState s (pre ++ cb :: post) (some cb) t).w)]) := by
  have hn := nextCallback_append pre post cb h
  simp [fireBody, hb, runOps, emit, passState, hn]

theorem fireBody_leaves (place : Callback → List Callback → Nat) (beh : Nat → Callback → List Op)
    (k : Nat) (s : State) (pre post : List Callback) (cb : Callback)
    (t : List (Stmt × Watcher)) (hc : s.w.mCallingCallbacks = true)
    (hb : beh k cb ≠ []) (hall : ∀ o ∈ beh k cb, o = Op.unwatch cb)
    (hnd : (pre ++ cb :: post).Nodup) :
    fireBody place beh k cb (passState s (pre ++ cb :: post) (some cb) t)
      = passState s (pre ++ post) post.head?
          (t ++ [(Stmt.call cb s.w.mCallbackEvents,
                  (passState s (pre ++ cb :: post) (some cb) t).w)]) := by
  have hparts := List.nodup_append.1 hnd
  have hpre : cb ∉ pre := fun h => hparts.2.2 h (List.mem_cons_self cb post)
  have hpost : cb ∉ post := (List.nodup_cons.1 hparts.2.1).1
  have hmid : cb ∉ pre ++ post := by
    intro h
    rcases List.mem_append.1 h with h | h
    · exact hpre h
    · exact hpost h
  cases hbk : beh k cb with
  | nil => exact absurd hbk hb
  | cons o os =>
    have ho : o = Op.unwatch cb := hall o (by rw [hbk]; exact List.mem_cons_self o os)
    have hos : ∀ o2 ∈ os, o2 = Op.unwatch cb :=
      fun o2 h2 => hall o2 (by rw [hbk]; exact List.mem_cons_of_mem o h2)
    subst ho
    have hrun : runOps place (Op.unwatch cb :: os)
        (emit (Stmt.call cb s.w.mCallbackEvents) (passState s (pre ++ cb :: post) (some cb) t))
        = passState s (pre ++ post) post.head?
            (t ++ [(Stmt.call cb s.w.mCallbackEvents,
                    (passState s (pre ++ cb :: post) (some cb) t).w)]) := by
      rw [emit_passState]
      simp only [runOps, runOp]
      rw [unwatch_passState s pre post cb _ _ hc hpre]
      exact runOps_unwatch_absent place cb os _ hos hmid
    have hbatch : (passState s (pre ++ cb :: post) (some cb) t).w.mCallbackEvents
        = s.w.mCallbackEvents := rfl
    unfold fireBody
    simp only [hbk, hbatch, hrun]
    have hne : (passState s (pre ++ post) post.head?
        (t ++ [(Stmt.call cb s.w.mCallbackEvents,
                (passState s (pre ++ cb :: post) (some cb) t).w)])).w.mCallbacksIterator
        ≠ some cb := by
      show post.head? ≠ some cb
      intro hh
      exact hpost (List.mem_of_mem_head? hh)
    rw [if_neg hne]

/-- The loop when each callback only unregisters itself or does nothing: from
the cursor at the head of `rem`, with `pre` already visited, it invokes `rem`
in order and ends with the callbacks `pre` and the survivors of `rem`. -/
theorem fireLoop_selfRemoval (place : Callback → List Callback → Nat)
    (beh : Nat → Callback → List Op) (hbeh : ∀ k cb, ∀ o ∈ beh k cb, o = Op.unwatch cb)
    (s : State) (hc : s.w.mCallingCallbacks = true) :
    ∀ (rem pre : List Callback) (k fuel : Nat) (t : List (Stmt × Watcher)),
      (pre ++ rem).Nodup → rem.length < fuel →
      ∃ u, fireLoop place beh fuel k (passState s (pre ++ rem) rem.head? t)
          = Outcome.done (passState s (pre ++ survivors beh k rem) none (t ++ u)) ∧
        u.map Prod.fst = rem.map (fun c => Stmt.call c s.w.mCallbackEvents) ∧
        ∀ e ∈ u, e.2.mCallingCallbacks = true := by
  intro rem
  induction rem with
  | nil =>
    intro pre k fuel t _ hf
    obtain ⟨f, rfl⟩ : ∃ f, fuel = f + 1 := ⟨fuel - 1, by simp at hf; omega⟩
    refine ⟨[], ?_, rfl, by simp⟩
    rw [fireLoop_none _ _ _ _ _ rfl]
    simp [survivors]
  | cons cb post ih =>
    intro pre k fuel t hnd hf
    obtain ⟨f, rfl⟩ : ∃ f, fuel = f + 1 := ⟨fuel - 1, by simp at hf; omega⟩
    have hf2 : post.length < f := by simp at hf; omega
    have hparts := List.nodup_append.1 hnd
    have hpre : cb ∉ pre := fun h => hparts.2.2 h (List.mem_cons_self cb post)
    rw [fireLoop_some _ _ _ _ _ cb rfl]
    simp only [List.head?_cons]
    by_cases hb : beh k cb = []
    · rw [fireBody_stays place beh k s pre post cb t hb hpre]
      have hnd2 : ((pre ++ [cb]) ++ post).Nodup := by simpa using hnd
      obtain ⟨u, hu, hm, hcall⟩ := ih (pre ++ [cb]) (k + 1) f _ hnd2 hf2
      refine ⟨(Stmt.call cb s.w.mCallbackEvents,
          (passState s (pre ++ cb :: post) (some cb) t).w) :: u, ?_, ?_, ?_⟩
      · rw [hu]
        simp [survivors, hb]
      · simp [hm]
      · intro e he
        rcases List.mem_cons.1 he with h | h
        · rw [h]; exact hc
        · exact hcall e h
    · rw [fireBody_leaves place beh k s pre post cb t hc hb (hbeh k cb) hnd]
      have hnd2 : (pre ++ post).Nodup := by
        have := List.nodup_cons.1 hparts.2.1
        refine List.nodup_append.2 ⟨hparts.1, this.2, ?_⟩
        intro a ha hb2
        exact hparts.2.2 ha (List.mem_cons_of_mem cb hb2)
      obtain ⟨u, hu, hm, hcall⟩ := ih pre (k + 1) f _ hnd2 hf2
      refine ⟨(Stmt.call cb s.w.mCallbackEvents,
          (passState s (pre ++ cb :: post) (some cb) t).w) :: u, ?_, ?_, ?_⟩
      · rw [hu]
        have hb3 : (beh k cb).isEmpty = false := by
          cases hbk : beh k cb with
          | nil => exact absurd hbk hb
          | cons o os => rfl
        simp [survivors, hb3]
      · simp [hm]
      · intro e he
        rcases List.mem_cons.1 he with h | h
        · rw [h]; exact hc
        · exact hcall e h

theorem batches_append (t u : List (Stmt × Watcher)) :
    batches (t ++ u) = batches t ++ batches u := by
  induction t with
  | nil => rfl
  | cons x t ih =>
    obtain ⟨st, w⟩ := x
    cases st <;> simp [batches, ih]

theorem calls_of_map (b : List Event) :
    ∀ (u : List (Stmt × Watcher)) (l : List Callback),
      u.map Prod.fst = l.map (fun c => Stmt.call c b) →
      calls u = l ∧ batches u = l.map (fun _ => b) := by
  intro u
  induction u with
  | nil =>
    intro l h
    cases l with
    | nil => exact ⟨rfl, rfl⟩
    | cons c rest => simp at h
  | cons x rest ih =>
    intro l h
    cases l with
    | nil => simp at h
    | cons c l2 =>
      obtain ⟨st, w⟩ := x
      simp only [List.map_cons, List.cons.injEq] at h
      obtain ⟨h1, h2⟩ := h
      subst h1
      obtain ⟨i1, i2⟩ := ih l2 h2
      simp [calls, batches, i1, i2]

/-- What lines 100-105 do: `mCallingCallbacks` is false afterwards, the
statements traced are not invocations, and the callback set and both event
lists are untouched. -/
theorem fireFinish_frame (x : State) :
    ∃ u, (fireFinish x).trace = x.trace ++ u ∧ calls u = [] ∧ batches u = [] ∧
      (∀ e ∈ u, ∀ cb b, e.1 ≠ Stmt.call cb b) ∧
      (fireFinish x).w.mCallingCallbacks = false ∧
      (fireFinish x).w.mCallbacks = x.w.mCallbacks ∧
      (fireFinish x).w.mEvents = x.w.mEvents ∧
      (fireFinish x).w.mCallbackEvents = x.w.mCallbackEvents := by
  unfold fireFinish signalNotify unref
  by_cases h1 : x.w.mCallbacks.length = 0
  · by_cases h2 : x.w.mWatched = true
    · refine ⟨[(Stmt.setWatched false, { x.w with mCallingCallbacks := false }),
        (Stmt.uvClose x.w.mAsync, { x.w with mCallingCallbacks := false, mWatched := false }),
        (Stmt.removeShared, { x.w with mCallingCallbacks := false, mWatched := false }),
        (Stmt.signalNotify, { x.w with mCallingCallbacks := false, mWatched := false })],
        ?_, rfl, rfl, ?_, ?_, ?_, ?_, ?_⟩ <;> simp [h1, h2, emit]
    · refine ⟨[(Stmt.removeShared, { x.w with mCallingCallbacks := false }),
        (Stmt.signalNotify, { x.w with mCallingCallbacks := false })],
        ?_, rfl, rfl, ?_, ?_, ?_, ?_, ?_⟩ <;> simp [h1, h2, emit]
  · refine ⟨[(Stmt.signalNotify, { x.w with mCallingCallbacks := false })],
        ?_, rfl, rfl, ?_, ?_, ?_, ?_, ?_⟩ <;> simp [h1, emit]

theorem survivors_quiet (beh : Nat → Callback → List Op) (hq : ∀ k cb, beh k cb = []) :
    ∀ (l : List Callback) (k : Nat), survivors beh k l = l := by
  intro l
  induction l with
  | nil => intro k; rfl
  | cons c rest ih => intro k; simp [survivors, hq, ih]

theorem fireCallbacks_passState (place : Callback → List Callback → Nat)
    (beh : Nat → Callback → List Op) (fuel : Nat) (s : State) :
    fireCallbacks place beh fuel s
      = (fireLoop place beh fuel 0
          (passState { s with w := { s.w with mCallingCallbacks := true } }
            ([] ++ s.w.mCallbacks) s.w.mCallbacks.head? [])).andThen
          (fun s3 => Outcome.done (fireFinish s3)) := by
  simp [fireCallbacks, passState]

/-- The pass when each callback only unregisters itself or does nothing: it
returns, having invoked the callbacks registered at the start once each, in
order, with the batch `mCallbackEvents` and with `mCallingCallbacks` true;
the survivors are registered afterwards. -/
theorem fireCallbacks_selfRemoval (place : Callback → List Callback → Nat)
    (beh : Nat → Callback → List Op) (fuel : Nat) (s : State)
    (hbeh : ∀ k cb, ∀ o ∈ beh k cb, o = Op.unwatch cb) (hnd : s.w.mCallbacks.Nodup)
    (hfuel : s.w.mCallbacks.length < fuel) :
    ∃ s1 t, fireCallbacks place beh fuel s = Outcome.done s1 ∧ s1.trace = s.trace ++ t ∧
      calls t = s.w.mCallbacks ∧
      batches t = s.w.mCallbacks.map (fun _ => s.w.mCallbackEvents) ∧
      (∀ e ∈ t, ∀ cb b, e.1 = Stmt.call cb b → e.2.mCallingCallbacks = true) ∧
      s1.w.mCallbacks = survivors beh 0 s.w.mCallbacks ∧
      s1.w.mCallingCallbacks = false ∧ s1.w.mEvents = s.w.mEvents ∧
      s1.w.mCallbackEvents = s.w.mCallbackEvents := by
  obtain ⟨u, hu, hm, hcall⟩ := fireLoop_selfRemoval place beh hbeh
    ({ s with w := { s.w with mCallingCallbacks := true } } : State) rfl s.w.mCallbacks [] 0 fuel []
    (by simpa using hnd) hfuel
  obtain ⟨v, hv, hvc, hvb, hvn, hf1, hf2, hf3, hf4⟩ := fireFinish_frame
    (passState ({ s with w := { s.w with mCallingCallbacks := true } } : State)
      ([] ++ survivors beh 0 s.w.mCallbacks) none ([] ++ u))
  obtain ⟨hc1, hc2⟩ := calls_of_map s.w.mCallbackEvents u s.w.mCallbacks hm
  refine ⟨_, u ++ v, ?_, ?_, ?_, ?_, ?_, ?_, hf1, ?_, ?_⟩
  · rw [fireCallbacks_passState, hu]
    rfl
  · rw [hv]
    simp [passState]
  · rw [calls_append, hc1, hvc, List.append_nil]
  · rw [batches_append, hc2, hvb, List.append_nil]
  · intro e he cb b heq
    rcases List.mem_append.1 he with h | h
    · exact hcall e h
    · exact absurd heq (hvn e h cb b)
  · rw [hf2]
    simp [passState]
  · rw [hf3]
    rfl
  · rw [hf4]
    rfl

theorem mem_survivors (beh : Nat → Callback → List Op) (cb : Callback) :
    ∀ (l : List Callback) (k : Nat),
      cb ∈ survivors beh k l ↔ ∃ i, l.get? i = some cb ∧ beh (k + i) cb = [] := by
  intro l
  induction l with
  | nil => intro k; simp [survivors]
  | cons c rest ih =>
    intro k
    constructor
    · intro h
      unfold survivors at h
      split at h
      · rename_i he
        rcases List.mem_cons.1 h with h1 | h1
        · subst h1
          exact ⟨0, rfl, by simpa using he⟩
        · obtain ⟨i, hi, hb⟩ := (ih (k + 1)).1 h1
          exact ⟨i + 1, by simpa using hi, by rw [← hb]; congr 1; omega⟩
      · obtain ⟨i, hi, hb⟩ := (ih (k + 1)).1 h
        exact ⟨i + 1, by simpa using hi, by rw [← hb]; congr 1; omega⟩
    · rintro ⟨i, hi, hb⟩
      cases i with
      | zero =>
        simp only [List.get?_cons_zero, Option.some.injEq] at hi
        subst hi
        have he : (beh k c).isEmpty = true := by
          rw [Nat.add_zero] at hb
          simp [hb]
        simp [survivors, he]
      | succ j =>
        have hmem : cb ∈ survivors beh (k + 1) rest :=
          (ih (k + 1)).2 ⟨j, by simpa using hi, by rw [← hb]; congr 1; omega⟩
        unfold survivors
        split
        · exact List.mem_cons_of_mem c hmem
        · exact hmem

/-- C17: when the only reentrant calls are `unwatch` of the callback being
invoked, the pass (with fuel above the number of callbacks) returns, having
invoked every callback registered at the start exactly once, in iteration
order.  The callback set afterwards is the old one, in order, without the
callbacks that removed themselves: a callback stays exactly when it made no
call in its invocation, the `i`-th of the pass for the `i`-th callback. -/
theorem self_removal_pass (place : Callback → List Callback → Nat)
    (beh : Nat → Callback → List Op) (fuel : Nat) (s : State)
    (hbeh : ∀ k cb, ∀ o ∈ beh k cb, o = Op.unwatch cb) (hnd : s.w.mCallbacks.Nodup)
    (hfuel : s.w.mCallbacks.length < fuel) :
    ∃ s1 t, fireCallbacks place beh fuel s = Outcome.done s1 ∧ s1.trace = s.trace ++ t ∧
      calls t = s.w.mCallbacks ∧
      s1.w.mCallbacks = survivors beh 0 s.w.mCallbacks ∧
      ∀ cb, cb ∈ s1.w.mCallbacks ↔ ∃ i, s.w.mCallbacks.get? i = some cb ∧ beh i cb = [] := by
  obtain ⟨s1, t, h1, h2, h3, _, _, h6, _⟩ :=
    fireCallbacks_selfRemoval place beh fuel s hbeh hnd hfuel
  refine ⟨s1, t, h1, h2, h3, h6, ?_⟩
  intro cb
  rw [h6, mem_survivors]
  simp

/-- C17 on the callbacks `[1, 2, 3]` where 2 unregisters itself: the pass
invokes 1, 2, 3 and leaves `[1, 3]`. -/
theorem self_removal_pass_witness :
    ∃ s1 t, fireCallbacks placeLast secondLeavesBeh 4 scenarioState = Outcome.done s1 ∧
      s1.trace = t ∧ calls t = [1, 2, 3] ∧ s1.w.mCallbacks = [1, 3] := by
  obtain ⟨s1, t, h1, h2, h3, h4, _⟩ := self_removal_pass placeLast secondLeavesBeh 4 scenarioState
    (by intro k cb o ho
        unfold secondLeavesBeh at ho
        split at ho
        · rename_i hcb
          simp only [List.mem_singleton] at ho
          rw [ho, hcb]
        · simp at ho)
    (by decide) (by decide)
  exact ⟨s1, t, h1, h2, h3, h4⟩

/-- C15: when no callback makes a reentrant call, the pass (with fuel above
the number of callbacks) returns, having invoked every callback of the set
exactly once, in iteration order from the first element, each with the batch
`mCallbackEvents`; `mCallingCallbacks` is true at every invocation and false
on return; the callback set, `mEvents` and `mCallbackEvents` are unchanged. -/
theorem plain_pass (place : Callback → List Callback → Nat)
    (beh : Nat → Callback → List Op) (fuel : Nat) (s : State)
    (hq : ∀ k cb, beh k cb = []) (hnd : s.w.mCallbacks.Nodup)
    (hfuel : s.w.mCallbacks.length < fuel) :
    ∃ s1 t, fireCallbacks place beh fuel s = Outcome.done s1 ∧ s1.trace = s.trace ++ t ∧
      calls t = s.w.mCallbacks ∧
      batches t = s.w.mCallbacks.map (fun _ => s.w.mCallbackEvents) ∧
      (∀ e ∈ t, ∀ cb b, e.1 = Stmt.call cb b → e.2.mCallingCallbacks = true) ∧
      s1.w.mCallingCallbacks = false ∧ s1.w.mCallbacks = s.w.mCallbacks ∧
      s1.w.mEvents = s.w.mEvents ∧ s1.w.mCallbackEvents = s.w.mCallbackEvents := by
  obtain ⟨s1, t, h1, h2, h3, h4, h5, h6, h7, h8, h9⟩ :=
    fireCallbacks_selfRemoval place beh fuel s
      (fun k cb o ho => by rw [hq k cb] at ho; simp at ho) hnd hfuel
  refine ⟨s1, t, h1, h2, h3, h4, h5, h7, ?_, h8, h9⟩
  rw [h6, survivors_quiet beh hq]

/-- C15 on the callbacks `[1, 2, 3]` with the batch `[7]`. -/
theorem plain_pass_witness :
    ∃ s1 t, fireCallbacks placeLast quietBeh 4 scenarioState = Outcome.done s1 ∧
      s1.trace = t ∧ calls t = [1, 2, 3] ∧ batches t = [[7], [7], [7]] ∧
      s1.w.mCallingCallbacks = false ∧ s1.w.mCallbacks = [1, 2, 3] := by
  obtain ⟨s1, t, h1, h2, h3, h4, _, h6, h7, _⟩ := plain_pass placeLast quietBeh 4 scenarioState
    (fun _ _ => rfl) (by decide) (by decide)
  exact ⟨s1, t, h1, h2, h3, h4, h6, h7⟩

/-! ## Termination of the dispatch loop -/

theorem remaining_le (it : Option Callback) (l : List Callback) : remaining it l ≤ l.length := by
  cases it with
  | none => exact Nat.zero_le _
  | some c => exact (List.dropWhile_sublist _).length_le

theorem remaining_split (c : Callback) (pre post : List Callback) (h : c ∉ pre) :
    remaining (some c) (pre ++ c :: post) = post.length + 1 := by
  induction pre with
  | nil => simp [remaining, List.dropWhile]
  | cons a t ih =>
    have ha : a ≠ c := fun e => h (by simp [e])
    have ht : c ∉ t := fun e => h (List.mem_cons_of_mem a e)
    have := ih ht
    simp only [remaining] at this ⊢
    simp [List.dropWhile, ha, this]

theorem remaining_next_lt (c : Callback) (l : List Callback) (hnd : l.Nodup) (hc : c ∈ l) :
    remaining (nextCallback c l) l < remaining (some c) l := by
  obtain ⟨pre, post, rfl⟩ := List.append_of_mem hc
  have hparts := List.nodup_append.1 hnd
  have hpre : c ∉ pre := fun h => hparts.2.2 h (List.mem_cons_self c post)
  rw [nextCallback_append pre post c hpre, remaining_split c pre post hpre]
  cases post with
  | nil => simp [remaining]
  | cons d post2 =>
    have hd : d ∉ pre ++ [c] := by
      intro h
      rcases List.mem_append.1 h with h1 | h1
      · exact hparts.2.2 h1 (by simp)
      · simp only [List.mem_singleton] at h1
        have := (List.nodup_cons.1 hparts.2.1).1
        exact this (by simp [h1])
    have := remaining_split d (pre ++ [c]) post2 hd
    simp only [List.append_assoc, List.singleton_append] at this
    simp [this]

theorem nextCallback_mem (h d : Callback) :
    ∀ (l : List Callback), l.Nodup → nextCallback h l = some d → d ∈ l ∧ d ≠ h := by
  intro l
  induction l with
  | nil => intro _ hn; simp [nextCallback] at hn
  | cons x rest ih =>
    intro hnd hn
    obtain ⟨hx, hrest⟩ := List.nodup_cons.1 hnd
    unfold nextCallback at hn
    split at hn
    · rename_i hxh
      have hd : d ∈ rest := List.mem_of_mem_head? hn
      refine ⟨List.mem_cons_of_mem x hd, ?_⟩
      intro e
      exact hx (by rw [hxh, ← e]; exact hd)
    · obtain ⟨h1, h2⟩ := ih hrest hn
      exact ⟨List.mem_cons_of_mem x h1, h2⟩

/-- Inside a pass `unwatch` only touches the container and the cursor. -/
theorem unwatch_in_pass (h : Callback) (s : State) (hc : s.w.mCallingCallbacks = true) :
    (h ∉ s.w.mCallbacks → (unwatch h s).2 = s) ∧
    (h ∈ s.w.mCallbacks → (unwatch h s).2
      = { s with w := { s.w with mCallbacks := s.w.mCallbacks.erase h,
                                 mCallbacksIterator := nextCallback h s.w.mCallbacks } }) := by
  constructor
  · intro hn
    rw [unwatch_absent h s hn]
  · intro hm
    cases he : eraseCallback h s.w.mCallbacks with
    | none => exact absurd hm ((eraseCallback_none h _).1 he)
    | some p =>
      obtain ⟨r, n⟩ := p
      obtain ⟨_, hr, hn⟩ := eraseCallback_some h _ r n he
      unfold unwatch
      rw [he]
      simp only
      split
      · show unref _ = _
        rw [unref_of_calling, hr, hn]
        exact hc
      · rw [hr, hn]

theorem passInv_unwatch (h : Callback) (s : State) (hi : PassInv s) :
    PassInv (unwatch h s).2 ∧ (unwatch h s).2.trace = s.trace ∧
    ((unwatch h s).2 = s ∨ (unwatch h s).2.w.mCallbacks.length < s.w.mCallbacks.length) := by
  obtain ⟨hc, hnd, hit⟩ := hi
  obtain ⟨h1, h2⟩ := unwatch_in_pass h s hc
  by_cases hm : h ∈ s.w.mCallbacks
  · rw [h2 hm]
    refine ⟨⟨hc, hnd.erase h, ?_⟩, rfl, Or.inr ?_⟩
    · intro c hcur
      obtain ⟨hin, hne⟩ := nextCallback_mem h c _ hnd hcur
      exact (List.mem_erase_of_ne hne).2 hin
    · show (s.w.mCallbacks.erase h).length < s.w.mCallbacks.length
      rw [List.length_erase_of_mem hm]
      have := List.length_pos_of_mem hm
      omega
  · rw [h1 hm]
    exact ⟨⟨hc, hnd, hit⟩, rfl, Or.inl rfl⟩

theorem passInv_runOps (place : Callback → List Callback → Nat) :
    ∀ (os : List Op) (s : State), (∀ o ∈ os, ∃ h, o = Op.unwatch h) → PassInv s →
      PassInv (runOps place os s) ∧ (runOps place os s).trace = s.trace ∧
      (runOps place os s = s ∨
        (runOps place os s).w.mCallbacks.length < s.w.mCallbacks.length) := by
  intro os
  induction os with
  | nil => intro s _ hi; exact ⟨hi, rfl, Or.inl rfl⟩
  | cons o rest ih =>
    intro s ho hi
    obtain ⟨h, rfl⟩ := ho o (List.mem_cons_self o rest)
    obtain ⟨i1, t1, c1⟩ := passInv_unwatch h s hi
    obtain ⟨i2, t2, c2⟩ := ih (unwatch h s).2 (fun o h2 => ho o (List.mem_cons_of_mem _ h2)) i1
    simp only [runOps, runOp]
    refine ⟨i2, t2.trans t1, ?_⟩
    rcases c1 with e1 | l1
    · rcases c2 with e2 | l2
      · exact Or.inl (e2.trans e1)
      · rw [e1] at l2
        exact Or.inr (by rw [e1]; exact l2)
    · rcases c2 with e2 | l2
      · exact Or.inr (by rw [e2]; exact l1)
      · exact Or.inr (Nat.lt_trans l2 l1)

theorem measure_shrink (a b r r2 : Nat) (hab : a < b) (hr : r2 ≤ a) :
    (a + 1) * (a + 1) + r2 < (b + 1) * (b + 1) + r := by
  have h1 : (a + 1) * (a + 1) ≤ b * b := Nat.mul_le_mul hab hab
  have h2 : (b + 1) * (b + 1) = b * b + 2 * b + 1 := by ring
  omega

/-- One iteration of the loop, with callbacks that only unregister: the
invariant is kept, the measure drops, and exactly one invocation is traced. -/
theorem fireBody_progress (place : Callback → List Callback → Nat)
    (beh : Nat → Callback → List Op) (k : Nat) (it : Callback) (s : State)
    (hbeh : ∀ o ∈ beh k it, ∃ h, o = Op.unwatch h) (hi : PassInv s)
    (hit : s.w.mCallbacksIterator = some it) :
    PassInv (fireBody place beh k it s) ∧
    passMeasure (fireBody place beh k it s) < passMeasure s ∧
    calls (fireBody place beh k it s).trace = calls s.trace ++ [it] := by
  have hi1 : PassInv (emit (Stmt.call it s.w.mCallbackEvents) s) := hi
  obtain ⟨i2, t2, c2⟩ := passInv_runOps place (beh k it) _ hbeh hi1
  have hmem : it ∈ s.w.mCallbacks := hi.2.2 it hit
  have htrace : calls (runOps place (beh k it) (emit (Stmt.call it s.w.mCallbackEvents) s)).trace
      = calls s.trace ++ [it] := by
    rw [t2]
    simp [emit, calls_append, calls]
  unfold fireBody
  simp only
  split
  · rename_i hcur
    refine ⟨⟨i2.1, i2.2.1, ?_⟩, ?_, htrace⟩
    · intro c hc
      exact (nextCallback_mem it c _ i2.2.1 hc).1
    · rcases c2 with e | l
      · rw [e]
        show (s.w.mCallbacks.length + 1) * (s.w.mCallbacks.length + 1)
            + remaining (nextCallback it s.w.mCallbacks) s.w.mCallbacks
          < (s.w.mCallbacks.length + 1) * (s.w.mCallbacks.length + 1)
            + remaining s.w.mCallbacksIterator s.w.mCallbacks
        rw [hit]
        have := remaining_next_lt it s.w.mCallbacks hi.2.1 hmem
        omega
      · exact measure_shrink _ _ _ _ l (remaining_le _ _)
  · refine ⟨i2, ?_, htrace⟩
    rcases c2 with e | l
    · rename_i hcur
      rw [e] at hcur
      exact absurd hit hcur
    · exact measure_shrink _ _ _ _ l (remaining_le _ _)

/-- The loop with callbacks that only unregister reaches `end()` within
`passMeasure` iterations. -/
theorem fireLoop_terminates (place : Callback → List Callback → Nat)
    (beh : Nat → Callback → List Op) (hbeh : ∀ k cb, ∀ o ∈ beh k cb, ∃ h, o = Op.unwatch h) :
    ∀ (fuel k : Nat) (s : State), PassInv s → passMeasure s < fuel →
      ∃ s1, fireLoop place beh fuel k s = Outcome.done s1 ∧
        (calls s1.trace).length ≤ (calls s.trace).length + passMeasure s := by
  intro fuel
  induction fuel with
  | zero => intro k s _ h; omega
  | succ f ih =>
    intro k s hi hf
    cases hit : s.w.mCallbacksIterator with
    | none =>
      rw [fireLoop_none _ _ _ _ _ hit]
      exact ⟨s, rfl, Nat.le_add_right _ _⟩
    | some it =>
      rw [fireLoop_some _ _ _ _ _ it hit]
      obtain ⟨i3, m3, c3⟩ := fireBody_progress place beh k it s (hbeh k it) hi hit
      obtain ⟨s1, h1, h2⟩ := ih (k + 1) _ i3 (by omega)
      refine ⟨s1, h1, ?_⟩
      rw [c3, List.length_append] at h2
      simp only [List.length_singleton] at h2
      omega

/-- C19: when callbacks only make `unwatch` calls, on any handles, the loop of
`fireCallbacks` reaches `end()` and the pass returns: for a container of `n`
callbacks, fuel above `(n + 1) * (n + 1) + n` is enough and at most that many
invocations are made, also when removals of visited elements move the cursor
backwards. -/
theorem dispatch_loop_terminates (place : Callback → List Callback → Nat)
    (beh : Nat → Callback → List Op) (fuel : Nat) (s : State)
    (hbeh : ∀ k cb, ∀ o ∈ beh k cb, ∃ h, o = Op.unwatch h) (hnd : s.w.mCallbacks.Nodup)
    (hfuel : (s.w.mCallbacks.length + 1) * (s.w.mCallbacks.length + 1)
      + s.w.mCallbacks.length < fuel) :
    ∃ s1, fireCallbacks place beh fuel s = Outcome.done s1 ∧
      (calls s1.trace).length ≤ (calls s.trace).length
        + ((s.w.mCallbacks.length + 1) * (s.w.mCallbacks.length + 1)
          + s.w.mCallbacks.length) := by
  have hi : PassInv (passState { s with w := { s.w with mCallingCallbacks := true } }
      ([] ++ s.w.mCallbacks) s.w.mCallbacks.head? []) :=
    ⟨rfl, hnd, fun c hc => List.mem_of_mem_head? hc⟩
  have hm : passMeasure (passState { s with w := { s.w with mCallingCallbacks := true } }
      ([] ++ s.w.mCallbacks) s.w.mCallbacks.head? [])
      ≤ (s.w.mCallbacks.length + 1) * (s.w.mCallbacks.length + 1) + s.w.mCallbacks.length :=
    Nat.add_le_add_left (remaining_le _ _) _
  obtain ⟨s3, h3, hc3⟩ := fireLoop_terminates place beh hbeh fuel 0 _ hi (by omega)
  obtain ⟨u, hu, hcu, _⟩ := fireFinish_frame s3
  refine ⟨fireFinish s3, ?_, ?_⟩
  · rw [fireCallbacks_passState, h3]
    rfl
  · rw [hu, calls_append, hcu, List.append_nil]
    have h0 : calls (passState { s with w := { s.w with mCallingCallbacks := true } }
        ([] ++ s.w.mCallbacks) s.w.mCallbacks.head? []).trace = calls s.trace := by
      simp [passState]
    rw [h0] at hc3
    omega

/-- C19 on the callbacks `[1, 2, 3]` where 3 unregisters the visited 1: the
cursor goes back to 2 and the pass still returns, after five invocations. -/
theorem dispatch_loop_terminates_witness :
    ∃ s1, fireCallbacks placeLast behindBeh 20 scenarioState = Outcome.done s1 ∧
      (calls s1.trace).length ≤ 19 := by
  obtain ⟨s1, h1, h2⟩ := dispatch_loop_terminates placeLast behindBeh 20 scenarioState
    (by intro k cb o ho
        unfold behindBeh at ho
        split at ho
        · exact ⟨1, by simpa using ho⟩
        · simp at ho)
    (by decide) (by decide)
  exact ⟨s1, h1, h2⟩

end WatcherModel
